import Mathlib

/-!
# Verification of the daily-journal text engine

Shallow embedding of the plain-text journal manipulation engine
(`textManager.ts`, `doingDone.js`, `eventTasks.ts`, `constants.ts`, and the
`handleToggleItem` handler of the host component) together with proofs of the
specified properties.

A document is a list of characters; a line is a list of characters free of
`'\n'`.  All JavaScript string operations used by the source (split on
newlines, trim, startsWith, regex tests against the fixed patterns of the
source, uppercase/lowercase) are modelled as structurally recursive functions
on `List Char`, so every definition evaluates inside the kernel.
-/

set_option maxHeartbeats 1000000
set_option maxRecDepth 8000

namespace Journal

/-- A line of text: a list of characters (no `'\n'` in well-formed lines). -/
abbrev Line := List Char

/-- Characters of a string literal, the bridge from `String` to our model. -/
def str (s : String) : Line := s.data

/-- Whitespace test, the model of the JavaScript `\s` character class for the
ASCII range used by the journal format. -/
def isWSChar (c : Char) : Bool :=
  c = ' ' || c = '\t' || c = '\n' || c = '\r' || c = '\x0b' || c = '\x0c'

/-- Digit test for the date patterns. -/
def isDig (c : Char) : Bool := '0' ≤ c && c ≤ '9'

/-- Leading-whitespace removal. -/
def dropLeadWS (l : Line) : Line := l.dropWhile isWSChar

/-- JavaScript `String.prototype.trim`: strip whitespace from both ends. -/
def trimL (l : Line) : Line :=
  ((l.dropWhile isWSChar).reverse.dropWhile isWSChar).reverse

/-- Bool-valued prefix test (JavaScript `startsWith`). -/
def startsWithL : Line → Line → Bool
  | [], _ => true
  | _ :: _, [] => false
  | p :: ps, c :: cs => p = c && startsWithL ps cs

/-- Auxiliary splitter: returns the first line and the remaining lines. -/
def splitNLAux : List Char → Line × List Line
  | [] => ([], [])
  | c :: cs =>
    let r := splitNLAux cs
    if c = '\n' then ([], r.1 :: r.2) else (c :: r.1, r.2)

/-- JavaScript `content.split('\n')`. -/
def splitNL (s : List Char) : List Line :=
  (splitNLAux s).1 :: (splitNLAux s).2

/-- JavaScript `lines.join('\n')`. -/
def joinNL : List Line → List Char
  | [] => []
  | [l] => l
  | l :: l' :: ls => l ++ '\n' :: joinNL (l' :: ls)

theorem joinNL_splitNLAux (s : List Char) :
    joinNL ((splitNLAux s).1 :: (splitNLAux s).2) = s := by
  induction s with
  | nil => rfl
  | cons c cs ih =>
    simp only [splitNLAux]
    by_cases h : c = '\n'
    · subst h
      simp only [if_pos rfl]
      cases hs : (splitNLAux cs).2 with
      | nil =>
        simp only [joinNL]
        rw [hs] at ih; simpa [joinNL] using ih
      | cons a as =>
        simp only [joinNL]
        rw [hs] at ih; simpa [joinNL] using ih
    · simp only [if_neg h]
      cases hs : (splitNLAux cs).2 with
      | nil =>
        simp only [joinNL]
        rw [hs] at ih; simpa [joinNL] using ih
      | cons a as =>
        simp only [joinNL]
        rw [hs] at ih; simpa [joinNL] using ih

/-- Splitting and re-joining is the identity: `lines.join('\n')` after
`content.split('\n')` gives back the content. -/
theorem joinNL_splitNL (s : List Char) : joinNL (splitNL s) = s :=
  joinNL_splitNLAux s

/-- No newline occurs in a line. -/
def noNL (l : Line) : Prop := '\n' ∉ l

theorem splitNLAux_no_newline (s : List Char) :
    '\n' ∉ (splitNLAux s).1 ∧ ∀ l ∈ (splitNLAux s).2, '\n' ∉ l := by
  induction s with
  | nil => exact ⟨by simp [splitNLAux], by simp [splitNLAux]⟩
  | cons c cs ih =>
    simp only [splitNLAux]
    by_cases h : c = '\n'
    · subst h
      refine ⟨by simp, ?_⟩
      intro l hl
      simp only [if_pos rfl] at hl
      rcases List.mem_cons.mp hl with h1 | h2
      · subst h1; exact ih.1
      · exact ih.2 l h2
    · refine ⟨?_, ?_⟩
      · simp only [if_neg h]
        intro hmem
        rcases List.mem_cons.mp hmem with h1 | h2
        · exact h h1.symm
        · exact ih.1 h2
      · simp only [if_neg h]
        exact ih.2

/-- Every line produced by splitting contains no newline. -/
theorem splitNL_no_newline (s : List Char) : ∀ l ∈ splitNL s, '\n' ∉ l := by
  intro l hl
  rcases List.mem_cons.mp hl with h1 | h2
  · subst h1; exact (splitNLAux_no_newline s).1
  · exact (splitNLAux_no_newline s).2 l h2

theorem splitNLAux_append_newline (l : Line) (s : List Char) (h : '\n' ∉ l) :
    splitNLAux (l ++ '\n' :: s) = (l, (splitNLAux s).1 :: (splitNLAux s).2) := by
  induction l with
  | nil => simp [splitNLAux]
  | cons c cs ih =>
    have hc : c ≠ '\n' := fun hc => h (hc ▸ List.mem_cons_self c cs)
    have hcs : '\n' ∉ cs := fun hm => h (List.mem_cons_of_mem c hm)
    simp [splitNLAux, ih hcs, hc]

theorem splitNLAux_of_no_newline (l : Line) (h : '\n' ∉ l) :
    splitNLAux l = (l, []) := by
  induction l with
  | nil => rfl
  | cons c cs ih =>
    have hc : c ≠ '\n' := fun hc => h (hc ▸ List.mem_cons_self c cs)
    have hcs : '\n' ∉ cs := fun hm => h (List.mem_cons_of_mem c hm)
    simp [splitNLAux, ih hcs, hc]

/-- Splitting after joining newline-free lines restores the line list. -/
theorem splitNL_joinNL (L : List Line) (hne : L ≠ [])
    (h : ∀ l ∈ L, '\n' ∉ l) : splitNL (joinNL L) = L := by
  induction L with
  | nil => exact absurd rfl hne
  | cons l rest ih =>
    cases rest with
    | nil =>
      have hl : '\n' ∉ l := h l (List.mem_cons_self l [])
      simp [joinNL, splitNL, splitNLAux_of_no_newline l hl]
    | cons l' ls =>
      have hl : '\n' ∉ l := h l (List.mem_cons_self l _)
      have hrest : ∀ x ∈ l' :: ls, '\n' ∉ x := fun x hx =>
        h x (List.mem_cons_of_mem l hx)
      have ihr := ih (by simp) hrest
      simp only [joinNL, splitNL] at ihr ⊢
      rw [splitNLAux_append_newline l _ hl]
      have h1 : (splitNLAux (joinNL (l' :: ls))).1 = l' := by
        have := congrArg List.head? ihr; simpa using this
      have h2 : (splitNLAux (joinNL (l' :: ls))).2 = ls := by
        have := congrArg List.tail ihr; simpa using this
      simp [h1, h2]

/-! ## Line classifiers and generic helpers -/

/-- Test for the pattern `\d{4}-\d{2}-\d{2}` at the start of a line. -/
def datePrefixB : Line → Bool
  | a :: b :: c :: d :: e :: f :: g :: h :: i :: j :: _ =>
    isDig a && isDig b && isDig c && isDig d && e = '-' &&
    isDig f && isDig g && h = '-' && isDig i && isDig j
  | _ => false

/-- The regex `/^\d{4}-\d{2}-\d{2}/` tested against the trimmed line
(`isDateHeader` in `doingDone.js` / `eventTasks.ts` / `textManager.ts`). -/
def isDateHeaderTrim (l : Line) : Bool := datePrefixB (trimL l)

/-- The regex `/^\d{4}-\d{2}-\d{2}$/` tested against the trimmed line
(the `dateRegex` of `dedupeDateBlocks`). -/
def isFullDateL (l : Line) : Bool :=
  let t := trimL l
  t.length = 10 && datePrefixB t

/-- The capture of `/^\[(.*?)\]$/`: for a string that begins with `[` and
ends with `]` (length at least 2) it returns the text between the first and
the last character; otherwise no match. -/
def headerMid : Line → Option Line
  | '[' :: rest =>
    match rest.getLast? with
    | some ']' => some rest.dropLast
    | _ => none
  | _ => none

/-- The regex `/^\[(.*?)\]$/` tested against the trimmed line. -/
def isHeaderB (l : Line) : Bool := (headerMid (trimL l)).isSome

/-- `line.trim().startsWith('==')`. -/
def sepPrefixB (l : Line) : Bool := startsWithL (str "==") (trimL l)

/-- ASCII uppercase of one character (model of `toUpperCase`). -/
def asciiUpper (c : Char) : Char :=
  if 'a' ≤ c && c ≤ 'z' then Char.ofNat (c.toNat - 32) else c

/-- ASCII lowercase of one character (model of `toLowerCase`). -/
def asciiLower (c : Char) : Char :=
  if 'A' ≤ c && c ≤ 'Z' then Char.ofNat (c.toNat + 32) else c

/-- Collapse whitespace runs to a single space
(`replace(/\s+/g, ' ')`); the flag records whether the previous character
was whitespace. -/
def collapseWSAux (prevWS : Bool) : Line → Line
  | [] => []
  | c :: cs =>
    if isWSChar c then
      if prevWS then collapseWSAux true cs else ' ' :: collapseWSAux true cs
    else c :: collapseWSAux false cs

def collapseWS (l : Line) : Line := collapseWSAux false l

/-- `replace(/^\s*x\s+/i, '')`: if the line consists of optional whitespace,
then `x` or `X`, then at least one whitespace character, remove that prefix
(the trailing `\s+` is greedy); otherwise return the line unchanged. -/
def stripXws (l : Line) : Line :=
  match l.dropWhile isWSChar with
  | c :: d :: rest =>
    if (c = 'x' || c = 'X') && isWSChar d then rest.dropWhile isWSChar else l
  | _ => l

/-- `replace(/^\s*-\s+/, '')`, analogous to `stripXws` for the `-` marker. -/
def stripDashWs (l : Line) : Line :=
  match l.dropWhile isWSChar with
  | c :: d :: rest =>
    if c = '-' && isWSChar d then rest.dropWhile isWSChar else l
  | _ => l

/-- Split on whitespace runs (`split(/\s+/)`), dropping empty tokens; applied
by the source only to trimmed strings, where the two coincide. -/
def splitWSAux (cur : Line) : Line → List Line
  | [] => if cur = [] then [] else [cur.reverse]
  | c :: cs =>
    if isWSChar c then
      if cur = [] then splitWSAux [] cs else cur.reverse :: splitWSAux [] cs
    else splitWSAux (c :: cur) cs

def splitWS (l : Line) : List Line := splitWSAux [] l

/-- Strict lexicographic order on lines by character code, the model of the
code-unit comparison underlying the date sort. -/
def lexLt : Line → Line → Bool
  | [], [] => false
  | [], _ :: _ => true
  | _ :: _, [] => false
  | a :: as, b :: bs => decide (a < b) || (a == b && lexLt as bs)

/-- Keep-first-occurrence de-duplication (`[...new Set(xs)]`), with an
accumulator of already-seen elements. -/
def dedupAux : List Line → List Line → List Line
  | [], _ => []
  | x :: xs, seen =>
    if x ∈ seen then dedupAux xs seen else x :: dedupAux xs (x :: seen)

/-- Descending order used by the date sort `(a, b) => b.localeCompare(a)`. -/
def lineGe (a b : Line) : Prop := lexLt b a = true ∨ a = b

instance : DecidableRel lineGe := fun a b => by
  unfold lineGe; infer_instance

/-- JS `lines[i]`, with `''`/undefined collapsed to the empty line as the
source only uses out-of-range reads behind falsiness guards. -/
def getL (lines : List Line) (i : Nat) : Line := lines.getD i []

/-- In-place update of one line (`lines[i] = x`). -/
def setAtL : List Line → Nat → Line → List Line
  | [], _, _ => []
  | _ :: t, 0, x => x :: t
  | h :: t, n + 1, x => h :: setAtL t n x

/-- `lines.splice(i, 1)`: remove one element, no-op past the end. -/
def eraseAtL : List Line → Nat → List Line
  | [], _ => []
  | _ :: t, 0 => t
  | h :: t, n + 1 => h :: eraseAtL t n

/-- `lines.splice(i, 0, ...xs)`: insert before index `i`, clamped to the
length as in JavaScript. -/
def insertManyAtL : List Line → Nat → List Line → List Line
  | l, 0, xs => xs ++ l
  | [], _ + 1, xs => xs
  | h :: t, n + 1, xs => h :: insertManyAtL t n xs

/-- `lines.splice(i, 0, x)`. -/
def insertAtL (l : List Line) (i : Nat) (x : Line) : List Line :=
  insertManyAtL l i [x]

/-- Index of the first element satisfying `p` (JS `findIndex`, with `none`
for `-1`). -/
def findIdxL (p : Line → Bool) : List Line → Option Nat
  | [] => none
  | x :: xs => if p x then some 0 else (findIdxL p xs).map (· + 1)

/-- First index `i` in the half-open range `[s, e)` whose line satisfies `p`
(the standard indexed loop of the source, expressed on the slice). -/
def findIdxFrom (p : Line → Bool) (lines : List Line) (s e : Nat) : Option Nat :=
  match findIdxL p ((lines.take e).drop s) with
  | some k => some (s + k)
  | none => none

/-! ## `constants.ts` -/

/-- `extractDatesFromContent`: all 10-character date tokens found at the start
of a line, de-duplicated and sorted descending (newest first). -/
def extractDatesFromContent (content : List Char) : List Line :=
  let tokens := (splitNL content).filterMap
    (fun l => if datePrefixB l then some (l.take 10) else none)
  List.insertionSort lineGe (dedupAux tokens [])

/-- Substring occurrence test: `pat` occurs contiguously inside `s`. -/
def containsSub (pat : Line) : List Char → Bool
  | [] => startsWithL pat []
  | c :: cs => startsWithL pat (c :: cs) || containsSub pat cs

/-! ## Shared locators (`doingDone.js` / `textManager.ts`)

`findDateBlock` of `doingDone.js` and `findDateBlockRange` of
`textManager.ts` implement the same search; one definition models both. -/

/-- First line whose trimmed text starts with `dateStr`, paired with the
index of the next date-header line below it (or the length). -/
def findDateBlock (lines : List Line) (dateStr : Line) : Option (Nat × Nat) :=
  match findIdxL (fun l => startsWithL dateStr (trimL l)) lines with
  | none => none
  | some i =>
    let blockEnd :=
      match findIdxFrom isDateHeaderTrim lines (i + 1) lines.length with
      | some j => j
      | none => lines.length
    some (i, blockEnd)

/-- Section locator: the line within `[dateIndex, blockEnd)` trim-equal to
`header`, and the end of that section (next section or date header). -/
def findSectionWithinBlock (lines : List Line) (dateIndex blockEnd : Nat)
    (header : Line) : Option (Nat × Nat) :=
  match findIdxFrom (fun l => trimL l == header) lines dateIndex blockEnd with
  | none => none
  | some hi =>
    let endIndex :=
      match findIdxFrom (fun l => isHeaderB l || isDateHeaderTrim l)
          lines (hi + 1) blockEnd with
      | some j => j
      | none => blockEnd
    some (hi, endIndex)

/-! ## `doingDone.js` -/

/-- `normalizeForMatch`: trim, strip `x `/`- ` markers, collapse whitespace,
lowercase. -/
def normalizeForMatch (l : Line) : Line :=
  (collapseWS (stripDashWs (stripXws (trimL l)))).map asciiLower

/-- A trailing `#tag` token: starts with `#`, length greater than 1. -/
def isTagTok (t : Line) : Bool := startsWithL (str "#") t && t.length > 1

/-- The pop-from-the-end loop of `extractTagsFromLine`: split the token list
into the part before the maximal all-tag suffix, and that suffix. -/
def splitTags : List Line → List Line × List Line
  | [] => ([], [])
  | t :: rest =>
    let r := splitTags rest
    if r.1 = [] && isTagTok t then ([], t :: r.2) else (t :: r.1, r.2)

/-- `tokens.join(' ')`. -/
def joinSpace : List Line → Line
  | [] => []
  | [t] => t
  | t :: t' :: ts => t ++ ' ' :: joinSpace (t' :: ts)

/-- `extractTagsFromLine`: strip one leading `x `/`- ` marker, pop trailing
`#tags`; returns `(baseText, tags)`. -/
def extractTagsFromLine (line : Line) : Line × List Line :=
  let trimmed := trimL line
  if trimmed = [] then ([], [])
  else
    let working := trimL (stripDashWs (stripXws trimmed))
    if working = [] then ([], [])
    else
      let r := splitTags (splitWS working)
      (trimL (joinSpace r.1), r.2)

/-- The cleaning chain `line.trim().replace(/^\s*x\s+/i, '')
.replace(/^\s*-\s+/, '').trim()` used throughout `doingDone.js`. -/
def cleanMarkers (l : Line) : Line := trimL (stripDashWs (stripXws (trimL l)))

/-- `(baseText || cleaned).trim()`. -/
def baseOrCleaned (cleaned : Line) : Line :=
  let baseText := (extractTagsFromLine cleaned).1
  trimL (if baseText = [] then cleaned else baseText)

/-- Indentation test of the child-line loops:
`line.startsWith('  ') || line.startsWith('\t')`. -/
def isIndentedB (l : Line) : Bool :=
  startsWithL (str "  ") l || startsWithL (str "\t") l

/-- The DOING-line match of `moveDoingItemToDone`: skip falsy lines, then
exact, trimmed, or normalized equality. -/
def doingMatchPred (raw l : Line) : Bool :=
  !(l == ([] : Line)) &&
  (l == raw || trimL l == trimL raw ||
    normalizeForMatch l == normalizeForMatch raw)

/-- The EVENTS-child match of `moveDoingItemToDone`. -/
def childMatchPred (matchNorm l : Line) : Bool :=
  isIndentedB l &&
  (let childClean := cleanMarkers l
   !(childClean == ([] : Line)) && normalizeForMatch childClean == matchNorm)

/-- `moveDoingItemToDone` of `doingDone.js`. -/
def moveDoingItemToDone (content dateStr doingRawLine : List Char) : List Char :=
  if content = [] || dateStr = [] || doingRawLine = [] then content else
  let lines := splitNL content
  match findDateBlock lines dateStr with
  | none => content
  | some (dateIndex, blockEnd) =>
    match findSectionWithinBlock lines dateIndex blockEnd (str "[DOING]") with
    | none => content
    | some (dh, de) =>
      match findIdxFrom (doingMatchPred doingRawLine) lines (dh + 1) de with
      | none => content
      | some mi =>
        let removed := getL lines mi
        let lines1 := eraseAtL lines mi
        let doneExisting :=
          findSectionWithinBlock lines1 dateIndex blockEnd (str "[DONE]")
        let cleaned := cleanMarkers removed
        let matchText := baseOrCleaned cleaned
        if cleaned = [] then joinNL lines1
        else
          let doneLine := str "x " ++ cleaned
          let lines2 :=
            match findSectionWithinBlock lines1 dateIndex blockEnd
                (str "[EVENTS]") with
            | none => lines1
            | some (eh, ee) =>
              if matchText = [] then lines1
              else
                match findIdxFrom (childMatchPred (normalizeForMatch matchText))
                    lines1 (eh + 1) ee with
                | none => lines1
                | some ci =>
                  let line := getL lines1 ci
                  setAtL lines1 ci
                    (line.takeWhile isWSChar ++ str "x " ++ cleanMarkers line)
          match doneExisting with
          | some (ddh, _) => joinNL (insertAtL lines2 (ddh + 1) doneLine)
          | none =>
            let doingAfter :=
              findSectionWithinBlock lines2 dateIndex blockEnd (str "[DOING]")
            let at0 := dateIndex + 1
            let at1 := if sepPrefixB (getL lines2 at0) then at0 + 1 else at0
            let insertAt :=
              match doingAfter with
              | some (_, dEnd) => dEnd
              | none => at1
            joinNL (insertManyAtL lines2 insertAt
              [str "[DONE]", doneLine, []])

/-- The EVENTS-subtask match of `deleteEventSubtask`: indented child line,
then exact, trimmed, or normalized equality. -/
def subtaskMatchPred (raw l : Line) : Bool :=
  isIndentedB l &&
  (l == raw || trimL l == trimL raw ||
    normalizeForMatch l == normalizeForMatch raw)

/-- The mirrored-DOING-line match of `deleteEventSubtask`. -/
def mirrorMatchPred (matchNorm l : Line) : Bool :=
  let trimmed := trimL l
  !(trimmed == ([] : Line)) &&
  !(startsWithL (str "==") trimmed) &&
  (let candidate := baseOrCleaned (trimL (stripDashWs (stripXws trimmed)))
   normalizeForMatch candidate == matchNorm)

/-- `deleteEventSubtask` of `doingDone.js`. -/
def deleteEventSubtask (content dateStr subtaskRawLine : List Char) : List Char :=
  if content = [] || dateStr = [] || subtaskRawLine = [] then content else
  let lines := splitNL content
  match findDateBlock lines dateStr with
  | none => content
  | some (dateIndex, blockEnd) =>
    match findSectionWithinBlock lines dateIndex blockEnd (str "[EVENTS]") with
    | none => content
    | some (eh, ee) =>
      match findIdxFrom (subtaskMatchPred subtaskRawLine) lines (eh + 1) ee with
      | none => joinNL lines
      | some si =>
        let removedText := cleanMarkers (getL lines si)
        let lines1 := eraseAtL lines si
        if removedText = [] then joinNL lines1
        else
          match findDateBlock lines1 dateStr with
          | none => joinNL lines1
          | some (dI2, bE2) =>
            match findSectionWithinBlock lines1 dI2 bE2 (str "[DOING]") with
            | none => joinNL lines1
            | some (dh, de) =>
              match findIdxFrom (mirrorMatchPred (normalizeForMatch removedText))
                  lines1 (dh + 1) de with
              | none => joinNL lines1
              | some di => joinNL (eraseAtL lines1 di)

/-! ## `eventTasks.ts` -/

/-- `normalizeEventLineForMatch`: like `normalizeForMatch` with an extra trim
before lowercasing. -/
def normalizeEventLineForMatch (l : Line) : Line :=
  (trimL (collapseWS (stripDashWs (stripXws (trimL l))))).map asciiLower

/-- The block-enumeration loop of `addEventTaskToContent`: every maximal
range starting at a line whose trimmed text starts with `dateStr` and ending
at the next date-header line.  The state holds the start of the block being
scanned; lines inside a block are skipped without the start test, exactly as
the source loop resumes at the block end. -/
def findBlocksAux (dateStr : Line) : List Line → Nat → Option Nat → List (Nat × Nat)
  | [], idx, st =>
    match st with
    | some s => [(s, idx)]
    | none => []
  | l :: rest, idx, st =>
    match st with
    | some s =>
      if isDateHeaderTrim l then
        if startsWithL dateStr (trimL l) then
          (s, idx) :: findBlocksAux dateStr rest (idx + 1) (some idx)
        else
          (s, idx) :: findBlocksAux dateStr rest (idx + 1) none
      else
        findBlocksAux dateStr rest (idx + 1) (some s)
    | none =>
      if startsWithL dateStr (trimL l) then
        findBlocksAux dateStr rest (idx + 1) (some idx)
      else
        findBlocksAux dateStr rest (idx + 1) none

/-- The event-line match of `addEventTaskToContent`: exact, trimmed, or
normalized equality. -/
def eventMatchPred (raw l : Line) : Bool :=
  l == raw || trimL l == trimL raw ||
  normalizeEventLineForMatch l == normalizeEventLineForMatch raw

/-- The search across all matching date blocks for the event line. -/
def searchBlocks (lines : List Line) (raw : Line) :
    List (Nat × Nat) → Option (Nat × Nat)
  | [] => none
  | (s, e) :: rest =>
    match findIdxFrom (eventMatchPred raw) lines s e with
    | some i => some (i, e)
    | none => searchBlocks lines raw rest

/-- `addEventTaskToContent` of `eventTasks.ts`. -/
def addEventTaskToContent (content dateStr eventRawLine taskName : List Char) :
    List Char :=
  let lines := splitNL content
  let dateBlocks := findBlocksAux dateStr lines 0 none
  match dateBlocks with
  | [] => content
  | _ :: _ =>
    match searchBlocks lines eventRawLine dateBlocks with
    | none => content
    | some (ei, be) =>
      let dateIndex :=
        match dateBlocks.find? (fun b => b.1 ≤ ei && ei < b.2) with
        | some b => b.1
        | none => (dateBlocks.headD (0, 0)).1
      let childLine := str "  - " ++ taskName
      let lines1 := insertAtL lines (ei + 1) childLine
      let blockEnd1 := be + 1
      let doingItem := str "- " ++ taskName
      match findIdxFrom (fun l => trimL l == str "[DOING]")
          lines1 dateIndex blockEnd1 with
      | some dhi => joinNL (insertAtL lines1 (dhi + 1) doingItem)
      | none =>
        let at0 := dateIndex + 1
        let at1 := if sepPrefixB (getL lines1 at0) then at0 + 1 else at0
        let insertDoingAt :=
          match findIdxFrom (fun l => trimL l == str "[EVENTS]")
              lines1 dateIndex blockEnd1 with
          | none => at1
          | some ehi =>
            match findIdxFrom (fun l => isHeaderB l || isDateHeaderTrim l)
                lines1 (ehi + 1) blockEnd1 with
            | some j => j
            | none => blockEnd1
        joinNL (insertManyAtL lines1 insertDoingAt
          [str "[DOING]", doingItem, []])

/-! ## `textManager.ts`: `updateSectionForDate`, carry-over helpers -/

/-- `updateSectionForDate` of `textManager.ts`. -/
def updateSectionForDate (content date sectionName : List Char)
    (newItems : List Line) : List Char :=
  let lines := splitNL content
  let sectionHeader := '[' :: sectionName ++ [']']
  match findIdxL (fun l => startsWithL date (trimL l)) lines with
  | none =>
    let blockLines : List Line :=
      [date, str "========================================", sectionHeader] ++
      newItems ++
      [[], str "[DOING]", [], str "[DONE]", [], str "[NOTES]", [], []]
    let existing := content.dropWhile (fun c => c = '\n')
    joinNL blockLines ++ existing
  | some dateIndex =>
    let scanHit := findIdxFrom
      (fun l => isDateHeaderTrim l || trimL l == sectionHeader)
      lines (dateIndex + 1) lines.length
    let sectionIndex : Option Nat :=
      match scanHit with
      | some i => if isDateHeaderTrim (getL lines i) then none else some i
      | none => none
    match sectionIndex with
    | some si =>
      let nextSectionIndex :=
        match findIdxFrom (fun l => isDateHeaderTrim l || isHeaderB l)
            lines (si + 1) lines.length with
        | some j => j
        | none => lines.length
      joinNL (lines.take (si + 1) ++ newItems ++ lines.drop nextSectionIndex)
    | none =>
      let i0 := dateIndex + 1
      let insertIndex :=
        if startsWithL (str "==") (getL lines i0) then i0 + 1 else i0
      joinNL (lines.take insertIndex ++
        ([sectionHeader] ++ newItems ++ [[]]) ++ lines.drop insertIndex)

/-- `getSectionLinesForDate` of `textManager.ts`: the trimmed, non-blank,
non-separator lines of one section of the first block matching `dateStr`. -/
def getSectionLinesForDate (content : List Char) (dateStr header : Line) :
    List Line :=
  let lines := splitNL content
  match findDateBlock lines dateStr with
  | none => []
  | some (bs, be) =>
    match findIdxFrom (fun l => trimL l == header) lines bs be with
    | none => []
    | some hi =>
      let endIndex :=
        match findIdxFrom (fun l => isHeaderB l) lines (hi + 1) be with
        | some j => j
        | none => be
      (((lines.take endIndex).drop (hi + 1)).map trimL).filter
        (fun t => !(t == ([] : Line)) && !(startsWithL (str "==") t))

/-- The regex `/^x\s+/i` tested against the trimmed line. -/
def xPrefixTest (l : Line) : Bool :=
  match trimL l with
  | c :: d :: _ => (c = 'x' || c = 'X') && isWSChar d
  | _ => false

/-- `getCarryOverDoingItems` of `textManager.ts`. -/
def getCarryOverDoingItems (content toDateStr : List Char) : List Line :=
  if content = [] || toDateStr = [] then [] else
  let dates := extractDatesFromContent content
  match dates.find? (fun d => lexLt d toDateStr) with
  | none => []
  | some prev =>
    (getSectionLinesForDate content prev (str "[DOING]")).filter
      (fun l => !xPrefixTest l)

/-! ## `dedupeDateBlocks` of `textManager.ts`

The scan of the source is split into phases that mirror the loop exactly:
group the lines into runs headed by a full-date line (`splitBlocks`), take
the optional separator, parse each run into sections keyed by the uppercased
bracket label, merge runs with equal date, and rebuild. -/

/-- Blank line test (`isBlank` of the source). -/
def isBlankL (l : Line) : Bool := trimL l == ([] : Line)

/-- Group lines into the prefix before the first full-date header and the
runs `(dateLine, linesUntilNextDate)`. -/
def splitBlocks : List Line → List Line × List (Line × List Line)
  | [] => ([], [])
  | l :: rest =>
    let r := splitBlocks rest
    if isFullDateL l then ([], (l, r.1) :: r.2) else (l :: r.1, r.2)

/-- The default separator synthesized for a block without one. -/
def default40 : Line := str "========================================"

/-- Optional separator line directly after the date header. -/
def blockSep : List Line → Line × List Line
  | [] => (default40, [])
  | l :: rest => if sepPrefixB l then (trimL l, rest) else (default40, l :: rest)

/-- The keys (headers) of an in-order section association list. -/
def secKeys (secs : List (Line × List Line)) : List Line := secs.map Prod.fst

/-- `ensureSection`: register a header if new, preserving encounter order. -/
def ensureSec (secs : List (Line × List Line)) (h : Line) :
    List (Line × List Line) :=
  if h ∈ secKeys secs then secs else secs ++ [(h, [])]

/-- Append a raw line to the section with key `h`. -/
def pushLine : List (Line × List Line) → Line → Line → List (Line × List Line)
  | [], _, _ => []
  | (k, v) :: t, h, l =>
    if k = h then (k, v ++ [l]) :: t else (k, v) :: pushLine t h l

/-- The section loop of `dedupeDateBlocks`: lines before the first header
are dropped; a header line (uppercased) opens a section; other lines join
the current section. -/
def parseSecsAux : Option Line → List (Line × List Line) → List Line →
    List (Line × List Line)
  | _, acc, [] => acc
  | cur, acc, l :: rest =>
    match headerMid (trimL l) with
    | some mid =>
      let h := '[' :: mid.map asciiUpper ++ [']']
      parseSecsAux (some h) (ensureSec acc h) rest
    | none =>
      match cur with
      | some h => parseSecsAux cur (pushLine acc h l) rest
      | none => parseSecsAux none acc rest

def parseSecs (blockLines : List Line) : List (Line × List Line) :=
  parseSecsAux none [] blockLines

/-- Merge a later occurrence's section body into the accumulated one:
blank lines are kept only after a non-blank line, other lines only if not
already present. -/
def mergeBody (cur inc : List Line) : List Line :=
  inc.foldl (fun cur l =>
    if isBlankL l then
      match cur.getLast? with
      | none => cur ++ [l]
      | some last => if isBlankL last then cur else cur ++ [l]
    else if l ∈ cur then cur else cur ++ [l]) cur

/-- Update the entry with key `h` by merging `inc` into its body. -/
def updateSec : List (Line × List Line) → Line → List Line →
    List (Line × List Line)
  | [], _, _ => []
  | (k, v) :: t, h, inc =>
    if k = h then (k, mergeBody v inc) :: t else (k, v) :: updateSec t h inc

/-- Merge the sections of a later occurrence of the same date. -/
def mergeSecs (cur : List (Line × List Line)) :
    List (Line × List Line) → List (Line × List Line)
  | [] => cur
  | (h, body) :: rest =>
    if h ∈ secKeys cur then mergeSecs (updateSec cur h body) rest
    else mergeSecs (cur ++ [(h, body)]) rest

/-- One accumulated day: date token, separator, sections in encounter order. -/
structure DayAcc where
  date : Line
  sep : Line
  secs : List (Line × List Line)

/-- Merge a parsed block into the day accumulator (first occurrence keeps
its separator; later occurrences merge their sections). -/
def mergeDay : List DayAcc → Line → Line → List (Line × List Line) →
    List DayAcc
  | [], date, sep, secs => [⟨date, sep, secs⟩]
  | d :: t, date, sep, secs =>
    if d.date = date then ⟨d.date, d.sep, mergeSecs d.secs secs⟩ :: t
    else d :: mergeDay t date sep secs

def parseBlocks (blocks : List (Line × List Line)) : List DayAcc :=
  blocks.foldl (fun days b =>
    let sb := blockSep b.2
    mergeDay days (trimL b.1) sb.1 (parseSecs sb.2)) []

def parseDays (lines : List Line) : List DayAcc :=
  parseBlocks (splitBlocks lines).2

/-- Canonical section ordering preference. -/
def preferredHeaders : List Line :=
  [str "[EVENTS]", str "[DOING]", str "[BACKLOG]", str "[DONE]", str "[NOTES]"]

def lookupSec : List (Line × List Line) → Line → Option (List Line)
  | [], _ => none
  | (k, v) :: t, h => if k = h then some v else lookupSec t h

/-- Headers of a rebuilt day: preferred ones present, then the rest in
encounter order. -/
def headersOf (d : DayAcc) : List Line :=
  preferredHeaders.filter (fun h => (lookupSec d.secs h).isSome) ++
  (secKeys d.secs).filter (fun h => !(decide (h ∈ preferredHeaders)))

/-- Trim leading and trailing blank lines of a section body
(`pushSectionBodyCanonical`). -/
def trimBlanksEnds (body : List Line) : List Line :=
  ((body.dropWhile isBlankL).reverse.dropWhile isBlankL).reverse

/-- One rebuilt section: its header followed by the trimmed body. -/
def secChunk (d : DayAcc) (h : Line) : List Line :=
  h :: trimBlanksEnds ((lookupSec d.secs h).getD [])

/-- Join section chunks with exactly one blank line between them. -/
def joinSecChunks : List (List Line) → List Line
  | [] => []
  | [x] => x
  | x :: y :: ys => x ++ [[]] ++ joinSecChunks (y :: ys)

/-- One rebuilt day: date, separator, sections, one trailing blank line. -/
def dayLines (d : DayAcc) : List Line :=
  d.date :: d.sep :: (joinSecChunks ((headersOf d).map (secChunk d)) ++ [[]])

def concatAll : List (List Line) → List Line
  | [] => []
  | x :: xs => x ++ concatAll xs

def rebuiltLines (days : List DayAcc) : List Line :=
  concatAll (days.map dayLines)

/-- Everything of a rebuilt day after the date line. -/
def dayTail (d : DayAcc) : List Line :=
  d.sep :: (joinSecChunks ((headersOf d).map (secChunk d)) ++ [[]])

/-- The day accumulator obtained by reparsing one rebuilt day: same date and
separator, sections in rebuilt header order, each body the trimmed body
followed by the blank separator line that joins into it. -/
def reparse1 (d : DayAcc) : DayAcc :=
  ⟨d.date, d.sep,
    (headersOf d).map (fun h =>
      (h, trimBlanksEnds ((lookupSec d.secs h).getD []) ++ [[]]))⟩

/-- `dedupeDateBlocks` of `textManager.ts`. -/
def dedupeDateBlocks (content : List Char) : List Char :=
  if content = [] then content
  else
    match parseDays (splitNL content) with
    | [] => content
    | d :: ds => joinNL (rebuiltLines (d :: ds))

/-! ## `handleToggleItem` (host component, `part_000`) -/

/-- `line.replace(/x /i, '')`: remove the first occurrence of `x ` or `X `. -/
def removeFirstX : Line → Line
  | c1 :: c2 :: rest =>
    if (c1 = 'x' || c1 = 'X') && c2 = ' ' then rest
    else c1 :: removeFirstX (c2 :: rest)
  | l => l

/-- The toggle handler: first byte-exact line gets its completion marker
toggled. -/
def handleToggleItem (content itemRaw : List Char) : List Char :=
  let lines := splitNL content
  match findIdxL (fun l => l == itemRaw) lines with
  | none => content
  | some i =>
    let line := getL lines i
    if startsWithL (str "x ") ((trimL line).map asciiLower) then
      joinNL (setAtL lines i (removeFirstX line))
    else
      joinNL (setAtL lines i (line.takeWhile isWSChar ++ str "x " ++ trimL line))

/-- Generic both-ends trim, the common shape of `trimL` (on characters) and
`trimBlanksEnds` (on lines). -/
def edgeTrim {α : Type} (p : α → Bool) (l : List α) : List α :=
  ((l.dropWhile p).reverse.dropWhile p).reverse

/-! ## Invariants of the day accumulator -/

/-- A well-formed section key: bracketed, uppercase-invariant, no newline. -/
def GoodKey (h : Line) : Prop :=
  ∃ m, h = '[' :: m ++ [']'] ∧ m.map asciiUpper = m ∧ '\n' ∉ h

/-- A well-formed section body line: newline-free, not a date header of the
deduplicator, not a section header. -/
def GoodBodyLine (l : Line) : Prop :=
  '\n' ∉ l ∧ isFullDateL l = false ∧ headerMid (trimL l) = none

/-- Well-formed sections: good keys and body lines, distinct keys. -/
def GoodSecs (secs : List (Line × List Line)) : Prop :=
  (∀ p ∈ secs, GoodKey p.1 ∧ ∀ l ∈ p.2, GoodBodyLine l) ∧
  (secKeys secs).Nodup

/-- Well-formed accumulated day. -/
def GoodDay (d : DayAcc) : Prop :=
  (isFullDateL d.date = true ∧ trimL d.date = d.date ∧ '\n' ∉ d.date) ∧
  (trimL d.sep = d.sep ∧ startsWithL (str "==") d.sep = true ∧
    '\n' ∉ d.sep) ∧
  GoodSecs d.secs

/-- Well-formed day list: all days good, distinct dates. -/
def GoodDays (days : List DayAcc) : Prop :=
  (∀ d ∈ days, GoodDay d) ∧ (days.map DayAcc.date).Nodup

/-- Adjacent-empty-line freedom, the hypothesis of the amended blank-line
invariant. -/
def noAdjEmptyB : List Line → Bool
  | [] => true
  | [_] => true
  | a :: b :: t =>
    !(a == ([] : Line) && b == ([] : Line)) && noAdjEmptyB (b :: t)

/-! ## Specification-side definitions

These follow the wording of the specification, to be compared with the
definitions translated from the source. -/

/-- Toggling one line, as the specification words it: when the trimmed text
starts with `x ` case-insensitively, strip that marker (the two characters
after the leading whitespace); otherwise prepend `x ` to the trimmed text
after the original leading whitespace. -/
def specToggleLine (line : Line) : Line :=
  let leadWS := line.takeWhile isWSChar
  let rest := line.dropWhile isWSChar
  if startsWithL (str "x ") ((trimL line).map asciiLower) then
    leadWS ++ rest.drop 2
  else
    leadWS ++ str "x " ++ trimL line

/-- `toggleCompletion` as specified: find the first line byte-exactly equal
to `rawLine`; if none, return the document unchanged; otherwise toggle that
line's completion marker. -/
def specToggleCompletion (content rawLine : List Char) : List Char :=
  let lines := splitNL content
  match findIdxL (fun l => l == rawLine) lines with
  | none => content
  | some i => joinNL (setAtL lines i (specToggleLine (getL lines i)))

/-- `extractTagsFromLine` as specified: the tags are the maximal all-tag
suffix of the whitespace-delimited tokens (in original order), the base text
is the remaining prefix joined by single spaces. -/
def specExtractTags (line : Line) : Line × List Line :=
  let trimmed := trimL line
  if trimmed = [] then ([], [])
  else
    let working := trimL (stripDashWs (stripXws trimmed))
    if working = [] then ([], [])
    else
      let tokens := splitWS working
      let tags := (tokens.reverse.takeWhile isTagTok).reverse
      let base := (tokens.reverse.dropWhile isTagTok).reverse
      (trimL (joinSpace base), tags)

/-! # Helper lemmas -/

theorem findIdxL_some (p : Line → Bool) (l : List Line) (k : Nat)
    (h : findIdxL p l = some k) :
    k < l.length ∧ p (l.getD k []) = true ∧
      ∀ j, j < k → p (l.getD j []) = false := by
  induction l generalizing k with
  | nil => simp [findIdxL] at h
  | cons x xs ih =>
    by_cases hp : p x = true
    · rw [findIdxL, if_pos hp] at h
      have hk : k = 0 := by simpa using h.symm
      subst hk
      exact ⟨Nat.succ_pos _, hp, fun j hj => absurd hj (Nat.not_lt_zero j)⟩
    · rw [findIdxL, if_neg hp] at h
      rw [Option.map_eq_some'] at h
      obtain ⟨k', hk', rfl⟩ := h
      obtain ⟨hlt, hpk, hbefore⟩ := ih k' hk'
      refine ⟨Nat.succ_lt_succ hlt, by simpa using hpk, ?_⟩
      intro j hj
      cases j with
      | zero => simpa [Bool.not_eq_true] using hp
      | succ j' => exact hbefore j' (Nat.lt_of_succ_lt_succ hj)

theorem findIdxL_none (p : Line → Bool) (l : List Line) :
    findIdxL p l = none ↔ ∀ x ∈ l, p x = false := by
  induction l with
  | nil => simp [findIdxL]
  | cons x xs ih =>
    by_cases hp : p x = true
    · simp [findIdxL, hp]
    · rw [findIdxL, if_neg hp]
      simp only [Option.map_eq_none', ih, List.mem_cons]
      constructor
      · intro hall y hy
        rcases hy with rfl | hy
        · simpa [Bool.not_eq_true] using hp
        · exact hall y hy
      · intro hall y hy
        exact hall y (Or.inr hy)

theorem getD_slice (lines : List Line) (s e k : Nat) (h : s + k < e) :
    (((lines.take e).drop s).getD k []) = lines.getD (s + k) [] := by
  simp only [List.getD_eq_getElem?_getD, List.getElem?_drop]
  rw [List.getElem?_take_of_lt h]

theorem findIdxFrom_some (p : Line → Bool) (lines : List Line) (s e i : Nat)
    (h : findIdxFrom p lines s e = some i) :
    s ≤ i ∧ i < lines.length ∧ i < e ∧ p (lines.getD i []) = true := by
  unfold findIdxFrom at h
  cases hk : findIdxL p ((lines.take e).drop s) with
  | none => rw [hk] at h; simp at h
  | some k =>
    rw [hk] at h
    simp only [Option.some.injEq] at h
    subst h
    obtain ⟨hlt, hp, _⟩ := findIdxL_some _ _ _ hk
    have hse : s + k < min e lines.length := by
      have h1 : ((lines.take e).drop s).length = min e lines.length - s := by
        simp
      omega
    have h1 : s + k < e := lt_of_lt_of_le hse (min_le_left _ _)
    have h2 : s + k < lines.length := lt_of_lt_of_le hse (min_le_right _ _)
    refine ⟨Nat.le_add_right s k, h2, h1, ?_⟩
    rw [← getD_slice lines s e k h1]
    exact hp

theorem eraseAtL_eq (l : List Line) (i : Nat) :
    eraseAtL l i = l.take i ++ l.drop (i + 1) := by
  induction l generalizing i with
  | nil => cases i <;> rfl
  | cons x xs ih =>
    cases i with
    | zero => rfl
    | succ n => simp [eraseAtL, ih]

theorem insertManyAtL_length (l : List Line) (i : Nat) (xs : List Line) :
    (insertManyAtL l i xs).length = l.length + xs.length := by
  induction l generalizing i with
  | nil =>
    cases i with
    | zero => simp [insertManyAtL]
    | succ n => simp [insertManyAtL]
  | cons x t ih =>
    cases i with
    | zero => simp [insertManyAtL]; omega
    | succ n => simp [insertManyAtL, ih]; omega

theorem insertManyAtL_eq (l : List Line) (i : Nat) (xs : List Line)
    (h : i ≤ l.length) :
    insertManyAtL l i xs = l.take i ++ xs ++ l.drop i := by
  induction l generalizing i with
  | nil =>
    have : i = 0 := Nat.le_zero.mp h
    subst this; simp [insertManyAtL]
  | cons x t ih =>
    cases i with
    | zero => simp [insertManyAtL]
    | succ n =>
      simp only [insertManyAtL, List.take_succ_cons, List.drop_succ_cons,
        List.cons_append]
      rw [ih n (Nat.le_of_succ_le_succ h)]

theorem mem_insertManyAtL (l : List Line) (i : Nat) (xs : List Line) (y : Line)
    (h : y ∈ insertManyAtL l i xs) : y ∈ xs ∨ y ∈ l := by
  induction l generalizing i with
  | nil =>
    cases i with
    | zero => simp [insertManyAtL] at h; exact Or.inl h
    | succ n => simp [insertManyAtL] at h; exact Or.inl h
  | cons x t ih =>
    cases i with
    | zero =>
      simp only [insertManyAtL, List.mem_append] at h
      tauto
    | succ n =>
      simp only [insertManyAtL, List.mem_cons] at h
      rcases h with h | h
      · exact Or.inr (h ▸ List.mem_cons_self x t)
      · rcases ih n h with h | h
        · exact Or.inl h
        · exact Or.inr (List.mem_cons_of_mem x h)

theorem mem_setAtL (l : List Line) (i : Nat) (x y : Line)
    (h : y ∈ setAtL l i x) : y = x ∨ y ∈ l := by
  induction l generalizing i with
  | nil => simp [setAtL] at h
  | cons a t ih =>
    cases i with
    | zero =>
      simp only [setAtL, List.mem_cons] at h
      rcases h with h | h
      · exact Or.inl h
      · exact Or.inr (List.mem_cons_of_mem a h)
    | succ n =>
      simp only [setAtL, List.mem_cons] at h
      rcases h with h | h
      · exact Or.inr (h ▸ List.mem_cons_self a t)
      · rcases ih n h with h | h
        · exact Or.inl h
        · exact Or.inr (List.mem_cons_of_mem a h)

theorem setAtL_length (l : List Line) (i : Nat) (x : Line) :
    (setAtL l i x).length = l.length := by
  induction l generalizing i with
  | nil => rfl
  | cons a t ih =>
    cases i with
    | zero => rfl
    | succ n => simp [setAtL, ih]

/-- All lines of a list are newline-free. -/
def NoNLs (L : List Line) : Prop := ∀ l ∈ L, '\n' ∉ l

theorem noNL_of_subset {l' l : Line} (hs : ∀ c ∈ l', c ∈ l)
    (h : '\n' ∉ l) : '\n' ∉ l' := fun hm => h (hs _ hm)

theorem trimL_subset (l : Line) : ∀ c ∈ trimL l, c ∈ l := by
  intro c hc
  unfold trimL at hc
  rw [List.mem_reverse] at hc
  have h1 := (List.dropWhile_sublist (l := (l.dropWhile isWSChar).reverse)
    (p := isWSChar)).subset hc
  rw [List.mem_reverse] at h1
  exact (List.dropWhile_sublist (l := l) (p := isWSChar)).subset h1

theorem dropWhileWS_subset (l : Line) : ∀ c ∈ l.dropWhile isWSChar, c ∈ l :=
  fun _ hc => (List.dropWhile_sublist _).subset hc

theorem stripXws_subset (l : Line) : ∀ c ∈ stripXws l, c ∈ l := by
  intro c hc
  unfold stripXws at hc
  split at hc
  case h_1 a d rest heq =>
    split at hc
    · have h1 : c ∈ rest.dropWhile isWSChar → c ∈ rest :=
        fun h => (List.dropWhile_sublist _).subset h
      have h2 : c ∈ rest := h1 hc
      have : c ∈ l.dropWhile isWSChar := by
        rw [heq]; exact List.mem_cons_of_mem _ (List.mem_cons_of_mem _ h2)
      exact dropWhileWS_subset l _ this
    · exact hc
  case h_2 => exact hc

theorem stripDashWs_subset (l : Line) : ∀ c ∈ stripDashWs l, c ∈ l := by
  intro c hc
  unfold stripDashWs at hc
  split at hc
  case h_1 a d rest heq =>
    split at hc
    · have h2 : c ∈ rest := (List.dropWhile_sublist _).subset hc
      have : c ∈ l.dropWhile isWSChar := by
        rw [heq]; exact List.mem_cons_of_mem _ (List.mem_cons_of_mem _ h2)
      exact dropWhileWS_subset l _ this
    · exact hc
  case h_2 => exact hc

theorem cleanMarkers_subset (l : Line) : ∀ c ∈ cleanMarkers l, c ∈ l := by
  intro c hc
  unfold cleanMarkers at hc
  exact trimL_subset _ _ (stripXws_subset _ _ (stripDashWs_subset _ _
    (trimL_subset _ _ hc)))

theorem takeWhileWS_subset (l : Line) : ∀ c ∈ l.takeWhile isWSChar, c ∈ l :=
  fun _ hc => (List.takeWhile_sublist _).subset hc

theorem splitNL_joinNL_of_noNLs (L : List Line) (hne : L ≠ [])
    (hN : NoNLs L) : splitNL (joinNL L) = L :=
  splitNL_joinNL L hne hN

theorem NoNLs_splitNL (s : List Char) : NoNLs (splitNL s) :=
  splitNL_no_newline s

theorem NoNLs_eraseAtL (L : List Line) (i : Nat) (hN : NoNLs L) :
    NoNLs (eraseAtL L i) := by
  intro l hl
  rw [eraseAtL_eq] at hl
  rcases List.mem_append.mp hl with h | h
  · exact hN l ((List.take_sublist _ _).subset h)
  · exact hN l ((List.drop_sublist _ _).subset h)

theorem NoNLs_setAtL (L : List Line) (i : Nat) (x : Line) (hx : '\n' ∉ x)
    (hN : NoNLs L) : NoNLs (setAtL L i x) := by
  intro l hl
  rcases mem_setAtL L i x l hl with rfl | h
  · exact hx
  · exact hN l h

theorem NoNLs_insertManyAtL (L : List Line) (i : Nat) (xs : List Line)
    (hxs : NoNLs xs) (hN : NoNLs L) : NoNLs (insertManyAtL L i xs) := by
  intro l hl
  rcases mem_insertManyAtL L i xs l hl with h | h
  · exact hxs l h
  · exact hN l h

/-- After inserting a newline-free line at a position within the list, the
join-then-split round trip exposes it at exactly that index. -/
theorem getL_split_join_insert (L : List Line) (i : Nat) (x : Line)
    (hN : NoNLs L) (hx : '\n' ∉ x) (hi : i ≤ L.length) :
    getL (splitNL (joinNL (insertManyAtL L i [x]))) i = x := by
  have hne : insertManyAtL L i [x] ≠ [] := by
    have := insertManyAtL_length L i [x]
    intro hcon
    rw [hcon] at this
    simp at this
  have hNi : NoNLs (insertManyAtL L i [x]) :=
    NoNLs_insertManyAtL L i [x] (by intro l hl; simp at hl; subst hl; exact hx)
      hN
  rw [splitNL_joinNL_of_noNLs _ hne hNi, insertManyAtL_eq L i [x] hi]
  unfold getL
  have hlen : (L.take i).length = i := by simp [Nat.min_eq_left hi]
  rw [List.append_assoc, List.getD_eq_getElem?_getD,
    List.getElem?_append_right (by omega), hlen, Nat.sub_self]
  simp

theorem getL_mem_or_nil (L : List Line) (i : Nat) :
    getL L i ∈ L ∨ getL L i = [] := by
  unfold getL
  rcases Nat.lt_or_ge i L.length with hlt | hge
  · left
    rw [List.getD_eq_getElem?_getD, List.getElem?_eq_getElem hlt]
    exact List.getElem_mem hlt
  · right
    exact List.getD_eq_default _ _ hge

theorem noNL_getL (L : List Line) (i : Nat) (hN : NoNLs L) :
    '\n' ∉ getL L i := by
  rcases getL_mem_or_nil L i with h | h
  · exact hN _ h
  · rw [h]; simp

theorem findSectionWithinBlock_some (lines : List Line) (di be : Nat)
    (header : Line) (hi ei : Nat)
    (h : findSectionWithinBlock lines di be header = some (hi, ei)) :
    findIdxFrom (fun l => trimL l == header) lines di be = some hi ∧
      hi < lines.length := by
  unfold findSectionWithinBlock at h
  cases hf : findIdxFrom (fun l => trimL l == header) lines di be with
  | none => rw [hf] at h; simp at h
  | some hIdx =>
    rw [hf] at h
    simp only [Option.some.injEq, Prod.mk.injEq] at h
    obtain ⟨h1, _⟩ := h
    subst h1
    exact ⟨rfl, (findIdxFrom_some _ _ _ _ _ hf).2.1⟩

theorem char_ofNat_toNat (n : Nat) (h : n < 55296) : (Char.ofNat n).toNat = n := by
  unfold Char.ofNat
  rw [dif_pos (Or.inl h)]
  show (BitVec.ofNatLt n _).toNat = n
  simp [BitVec.toNat_ofNatLt]

theorem char_toNat_inj (a b : Char) (h : a.toNat = b.toNat) : a = b :=
  Char.eq_of_val_eq (UInt32.ext h)

theorem asciiLower_eq_x (a : Char) (h : asciiLower a = 'x') :
    a = 'x' ∨ a = 'X' := by
  unfold asciiLower at h
  by_cases hc : ('A' ≤ a && a ≤ 'Z') = true
  · rw [if_pos hc] at h
    rw [Bool.and_eq_true, decide_eq_true_eq, decide_eq_true_eq] at hc
    have h65 : 65 ≤ a.toNat := hc.1
    have h90 : a.toNat ≤ 90 := hc.2
    have ht := congrArg Char.toNat h
    rw [char_ofNat_toNat (a.toNat + 32) (by omega)] at ht
    have : a.toNat = 88 := by
      have : ('x' : Char).toNat = 120 := by decide
      omega
    right
    exact char_toNat_inj a 'X' (by rw [this]; decide)
  · rw [if_neg hc] at h
    exact Or.inl h

theorem asciiLower_eq_space (a : Char) (h : asciiLower a = ' ') : a = ' ' := by
  unfold asciiLower at h
  by_cases hc : ('A' ≤ a && a ≤ 'Z') = true
  · rw [if_pos hc] at h
    rw [Bool.and_eq_true, decide_eq_true_eq, decide_eq_true_eq] at hc
    have h65 : 65 ≤ a.toNat := hc.1
    have h90 : a.toNat ≤ 90 := hc.2
    have ht := congrArg Char.toNat h
    rw [char_ofNat_toNat (a.toNat + 32) (by omega)] at ht
    have : (' ' : Char).toNat = 32 := by decide
    omega
  · rw [if_neg hc] at h
    exact h

theorem isWSChar_cases (c : Char) (h : isWSChar c = true) :
    c = ' ' ∨ c = '\t' ∨ c = '\n' ∨ c = '\r' ∨ c = '\x0b' ∨ c = '\x0c' := by
  unfold isWSChar at h
  simp only [Bool.or_eq_true, decide_eq_true_eq] at h
  tauto

/-- Decomposition of the leading-whitespace-stripped line into the trimmed
text and the trailing whitespace. -/
theorem dropWhileWS_eq_trim_append (l : Line) :
    l.dropWhile isWSChar =
      trimL l ++ ((l.dropWhile isWSChar).reverse.takeWhile isWSChar).reverse := by
  unfold trimL
  calc l.dropWhile isWSChar
      = (l.dropWhile isWSChar).reverse.reverse := (List.reverse_reverse _).symm
    _ = ((l.dropWhile isWSChar).reverse.takeWhile isWSChar ++
          (l.dropWhile isWSChar).reverse.dropWhile isWSChar).reverse := by
        rw [List.takeWhile_append_dropWhile]
    _ = ((l.dropWhile isWSChar).reverse.dropWhile isWSChar).reverse ++
          ((l.dropWhile isWSChar).reverse.takeWhile isWSChar).reverse := by
        rw [List.reverse_append]

theorem removeFirstX_cons_notx (w : Char) (rest : Line)
    (hw : ¬(w = 'x' ∨ w = 'X')) :
    removeFirstX (w :: rest) = w :: removeFirstX rest := by
  cases rest with
  | nil => rfl
  | cons c2 rs =>
    rw [removeFirstX]
    rw [if_neg (by simp only [Bool.and_eq_true, Bool.or_eq_true,
      decide_eq_true_eq]; tauto)]

theorem removeFirstX_spec (ws : Line) (hws : ∀ c ∈ ws, isWSChar c = true)
    (a : Char) (t : Line) (ha : (a = 'x' || a = 'X') = true) :
    removeFirstX (ws ++ a :: ' ' :: t) = ws ++ t := by
  induction ws with
  | nil => simp [removeFirstX, (by simpa using ha :
      (decide (a = 'x') || decide (a = 'X')) = true)]
  | cons w ws ih =>
    have hw : isWSChar w = true := hws w (List.mem_cons_self _ _)
    have hwt : ∀ c ∈ ws, isWSChar c = true := fun c hc =>
      hws c (List.mem_cons_of_mem _ hc)
    have hwx : ¬(w = 'x' ∨ w = 'X') := by
      rcases isWSChar_cases w hw with rfl | rfl | rfl | rfl | rfl | rfl <;>
        simp
    rw [List.cons_append, removeFirstX_cons_notx w _ hwx, ih hwt,
      List.cons_append]

/-- With the completion test satisfied, the JavaScript `replace(/x /i, '')`
removes exactly the marker after the leading whitespace. -/
theorem removeFirstX_of_completed (line : Line)
    (h : startsWithL (str "x ") ((trimL line).map asciiLower) = true) :
    removeFirstX line =
      line.takeWhile isWSChar ++ (line.dropWhile isWSChar).drop 2 := by
  cases htl : trimL line with
  | nil => rw [htl] at h; simp [startsWithL, str] at h
  | cons a rest =>
    cases rest with
    | nil =>
      rw [htl] at h
      simp only [List.map_cons, List.map_nil, str, startsWithL] at h
      rcases Bool.and_eq_true _ _ |>.mp h with ⟨_, h2⟩
      simp [startsWithL] at h2
    | cons b t =>
      rw [htl] at h
      simp only [List.map_cons, str, startsWithL, Bool.and_eq_true,
        decide_eq_true_eq] at h
      obtain ⟨ha, hb, _⟩ := h
      have hb' : b = ' ' := asciiLower_eq_space b hb.symm
      have ha' : (a = 'x' || a = 'X') = true := by
        rcases asciiLower_eq_x a ha.symm with rfl | rfl <;> simp
      subst hb'
      have hdecomp := dropWhileWS_eq_trim_append line
      rw [htl] at hdecomp
      have hsplit : line = line.takeWhile isWSChar ++ line.dropWhile isWSChar :=
        (List.takeWhile_append_dropWhile ..).symm
      have hws : ∀ c ∈ line.takeWhile isWSChar, isWSChar c = true :=
        fun c hc => List.mem_takeWhile_imp hc
      calc removeFirstX line
          = removeFirstX (line.takeWhile isWSChar ++
              (a :: ' ' :: (t ++ ((line.dropWhile isWSChar).reverse.takeWhile
                isWSChar).reverse))) := by
            rw [← List.cons_append, ← List.cons_append, ← hdecomp, ← hsplit]
        _ = line.takeWhile isWSChar ++
              (t ++ ((line.dropWhile isWSChar).reverse.takeWhile
                isWSChar).reverse) := removeFirstX_spec _ hws a _ ha'
        _ = line.takeWhile isWSChar ++ (line.dropWhile isWSChar).drop 2 := by
            have hdrop2 : (line.dropWhile isWSChar).drop 2 =
                t ++ ((line.dropWhile isWSChar).reverse.takeWhile
                  isWSChar).reverse := by
              conv_lhs => rw [hdecomp]
              rfl
            rw [hdrop2]

theorem takeWhile_append_of_dropWhile_ne {p : Line → Bool} (A B : List Line)
    (h : A.dropWhile p ≠ []) :
    (A ++ B).takeWhile p = A.takeWhile p ∧
      (A ++ B).dropWhile p = A.dropWhile p ++ B := by
  induction A with
  | nil => simp [List.dropWhile] at h
  | cons a A' ih =>
    by_cases hp : p a = true
    · have h' : A'.dropWhile p ≠ [] := by
        simpa [List.dropWhile, hp] using h
      obtain ⟨h1, h2⟩ := ih h'
      constructor
      · simp [List.takeWhile, hp, h1]
      · simp only [List.cons_append, List.dropWhile, hp]
        exact h2
    · constructor
      · simp [List.takeWhile, hp]
      · simp [List.dropWhile, hp]

theorem takeWhile_append_of_dropWhile_nil {p : Line → Bool} (A B : List Line)
    (h : A.dropWhile p = []) :
    (A ++ B).takeWhile p = A ++ B.takeWhile p ∧
      (A ++ B).dropWhile p = B.dropWhile p := by
  induction A with
  | nil => simp
  | cons a A' ih =>
    by_cases hp : p a = true
    · have h' : A'.dropWhile p = [] := by
        simpa [List.dropWhile, hp] using h
      obtain ⟨h1, h2⟩ := ih h'
      constructor
      · simp [List.takeWhile, hp, h1]
      · simp only [List.cons_append, List.dropWhile, hp]
        exact h2
    · exfalso
      simp [List.dropWhile, hp] at h

/-- The pop-trailing-tags loop equals the reverse take-while description. -/
theorem splitTags_eq (tokens : List Line) :
    splitTags tokens = ((tokens.reverse.dropWhile isTagTok).reverse,
      (tokens.reverse.takeWhile isTagTok).reverse) := by
  induction tokens with
  | nil => rfl
  | cons t rest ih =>
    rw [splitTags, ih, List.reverse_cons]
    by_cases hall : rest.reverse.dropWhile isTagTok = []
    · have htake : rest.reverse.takeWhile isTagTok = rest.reverse := by
        have h := List.takeWhile_append_dropWhile (p := isTagTok)
          (l := rest.reverse)
        rw [hall] at h
        simpa using h
      obtain ⟨ht1, ht2⟩ :=
        takeWhile_append_of_dropWhile_nil rest.reverse [t] hall
      by_cases ht : isTagTok t = true
      · rw [if_pos (by simp [hall, ht])]
        have hA : ([t] : List Line).takeWhile isTagTok = [t] := by
          simp [List.takeWhile, ht]
        have hB : ([t] : List Line).dropWhile isTagTok = [] := by
          simp [List.dropWhile, ht]
        rw [ht1, ht2, hA, hB, htake]
        simp
      · rw [if_neg (by simp [hall, ht])]
        have hA : ([t] : List Line).takeWhile isTagTok = [] := by
          simp [List.takeWhile, ht]
        have hB : ([t] : List Line).dropWhile isTagTok = [t] := by
          simp [List.dropWhile, ht]
        rw [ht1, ht2, hA, hB, htake, hall]
        simp
    · obtain ⟨ht1, ht2⟩ :=
        takeWhile_append_of_dropWhile_ne rest.reverse [t] hall
      rw [if_neg (by simp [hall])]
      rw [ht1, ht2]
      simp

theorem searchBlocks_some (lines : List Line) (raw : Line)
    (blocks : List (Nat × Nat)) (i e : Nat)
    (h : searchBlocks lines raw blocks = some (i, e)) :
    ∃ s, (s, e) ∈ blocks ∧ s ≤ i ∧ i < e ∧ i < lines.length ∧
      eventMatchPred raw (lines.getD i []) = true := by
  induction blocks with
  | nil => simp [searchBlocks] at h
  | cons b rest ih =>
    obtain ⟨s', e'⟩ := b
    rw [searchBlocks] at h
    cases hf : findIdxFrom (eventMatchPred raw) lines s' e' with
    | some j =>
      rw [hf] at h
      simp only [Option.some.injEq, Prod.mk.injEq] at h
      obtain ⟨h1, h2⟩ := h
      subst h1; subst h2
      obtain ⟨hs, hlen, he, hp⟩ := findIdxFrom_some _ _ _ _ _ hf
      exact ⟨s', List.mem_cons_self _ _, hs, he, hlen, hp⟩
    | none =>
      rw [hf] at h
      obtain ⟨s, hmem, hrest⟩ := ih h
      exact ⟨s, List.mem_cons_of_mem _ hmem, hrest⟩

theorem dropWhile_dropWhile {α : Type} (p : α → Bool) (l : List α) :
    (l.dropWhile p).dropWhile p = l.dropWhile p := by
  cases h : l.dropWhile p with
  | nil => rfl
  | cons a t =>
    have ha : p a = false := by
      have hh := List.head?_dropWhile_not p l
      rw [h] at hh
      simpa using hh
    rw [List.dropWhile_cons_of_neg (by simp [ha])]

/-- Trimming is idempotent. -/
theorem trimL_idem (l : Line) : trimL (trimL l) = trimL l := by
  unfold trimL
  set Y := ((l.dropWhile isWSChar).reverse.dropWhile isWSChar) with hY
  have hfirst : Y.reverse.dropWhile isWSChar = Y.reverse := by
    cases hYr : Y.reverse with
    | nil => rfl
    | cons a t =>
      have ha : isWSChar a = false := by
        have h1 : Y.reverse.head? = some a := by rw [hYr]; rfl
        have h2 : Y.getLast? = some a := by
          rw [← List.head?_reverse]; exact h1
        have hsuf : Y <:+ (l.dropWhile isWSChar).reverse :=
          List.dropWhile_suffix isWSChar
        obtain ⟨pre, hpre⟩ := hsuf
        have hYne : Y ≠ [] := by
          intro hcon
          rw [hcon] at hYr
          simp at hYr
        have h3 : ((l.dropWhile isWSChar).reverse).getLast? = some a := by
          rw [← hpre, List.getLast?_append_of_ne_nil pre hYne]
          exact h2
        rw [List.getLast?_reverse] at h3
        have hh := List.head?_dropWhile_not isWSChar l
        rw [h3] at hh
        simpa using hh
      rw [List.dropWhile_cons_of_neg (by simp [ha])]
  rw [hfirst, List.reverse_reverse, hY, dropWhile_dropWhile]

/-! ## Order lemmas for the date sort -/

theorem lexLt_irrefl (l : Line) : lexLt l l = false := by
  induction l with
  | nil => rfl
  | cons a as ih => simp [lexLt, ih, lt_irrefl]

theorem lexLt_asymm (a b : Line) (h : lexLt a b = true) :
    lexLt b a = false := by
  induction a generalizing b with
  | nil =>
    cases b with
    | nil => simp [lexLt] at h
    | cons y ys => rfl
  | cons x xs ih =>
    cases b with
    | nil => simp [lexLt] at h
    | cons y ys =>
      simp only [lexLt, Bool.or_eq_true, Bool.and_eq_true, decide_eq_true_eq,
        beq_iff_eq] at h
      rcases h with h | ⟨rfl, h⟩
      · have h1 : ¬ (y < x) := not_lt_of_lt h
        have h2 : y ≠ x := ne_of_gt h
        simp [lexLt, h1, h2]
      · simp [lexLt, lt_irrefl, ih ys h]

theorem lexLt_connex (a b : Line) (h : a ≠ b) :
    lexLt a b = true ∨ lexLt b a = true := by
  induction a generalizing b with
  | nil =>
    cases b with
    | nil => exact absurd rfl h
    | cons y ys => left; rfl
  | cons x xs ih =>
    cases b with
    | nil => right; rfl
    | cons y ys =>
      rcases lt_trichotomy x y with hlt | heq | hgt
      · left; simp [lexLt, hlt]
      · subst heq
        have hne : xs ≠ ys := fun hcon => h (by rw [hcon])
        rcases ih ys hne with h1 | h1
        · left; simp [lexLt, h1]
        · right; simp [lexLt, h1]
      · right; simp [lexLt, hgt]

theorem lexLt_trans (a b c : Line) (h1 : lexLt a b = true)
    (h2 : lexLt b c = true) : lexLt a c = true := by
  induction a generalizing b c with
  | nil =>
    cases b with
    | nil => simp [lexLt] at h1
    | cons y ys =>
      cases c with
      | nil => simp [lexLt] at h2
      | cons z zs => rfl
  | cons x xs ih =>
    cases b with
    | nil => simp [lexLt] at h1
    | cons y ys =>
      cases c with
      | nil => simp [lexLt] at h2
      | cons z zs =>
        simp only [lexLt, Bool.or_eq_true, Bool.and_eq_true,
          decide_eq_true_eq, beq_iff_eq] at h1 h2 ⊢
        rcases h1 with h1 | ⟨rfl, h1⟩
        · rcases h2 with h2 | ⟨rfl, h2⟩
          · exact Or.inl (lt_trans h1 h2)
          · exact Or.inl h1
        · rcases h2 with h2 | ⟨rfl, h2⟩
          · exact Or.inl h2
          · exact Or.inr ⟨rfl, ih ys zs h1 h2⟩

instance : IsTotal Line lineGe := by
  constructor
  intro a b
  by_cases h : a = b
  · left; exact Or.inr h
  · rcases lexLt_connex a b h with h1 | h1
    · right; exact Or.inl h1
    · left; exact Or.inl h1

instance : IsTrans Line lineGe := by
  constructor
  intro a b c hab hbc
  rcases hab with hab | rfl
  · rcases hbc with hbc | rfl
    · exact Or.inl (lexLt_trans c b a hbc hab)
    · exact Or.inl hab
  · exact hbc

/-- The output of the date extractor is sorted descending. -/
theorem extractDates_sorted (content : List Char) :
    List.Sorted lineGe (extractDatesFromContent content) :=
  List.sorted_insertionSort lineGe _

/-- In a descending-sorted list, the first element strictly below `t` is the
greatest element strictly below `t`. -/
theorem find?_sorted_max (L : List Line) (t prev : Line)
    (hs : List.Sorted lineGe L)
    (h : L.find? (fun d => lexLt d t) = some prev) :
    prev ∈ L ∧ lexLt prev t = true ∧
      ∀ d ∈ L, lexLt d t = true → lexLt d prev = true ∨ d = prev := by
  induction L with
  | nil => simp at h
  | cons x xs ih =>
    by_cases hx : lexLt x t = true
    · simp only [List.find?_cons, hx, Option.some.injEq] at h
      have hp : prev = x := h.symm
      subst hp
      refine ⟨List.mem_cons_self _ _, hx, ?_⟩
      intro d hd _
      rcases List.mem_cons.mp hd with rfl | hd
      · exact Or.inr rfl
      · have hge : lineGe prev d := (List.sorted_cons.mp hs).1 d hd
        rcases hge with h1 | h1
        · exact Or.inl h1
        · exact Or.inr h1.symm
    · have hx' : lexLt x t = false := by
        simpa [Bool.not_eq_true] using hx
      simp only [List.find?_cons, hx'] at h
      obtain ⟨hmem, hlt, hall⟩ := ih (List.sorted_cons.mp hs).2 h
      refine ⟨List.mem_cons_of_mem _ hmem, hlt, ?_⟩
      intro d hd hdt
      rcases List.mem_cons.mp hd with rfl | hd
      · exact absurd hdt hx
      · exact hall d hd hdt

/-! ## Generic edge-trim lemmas -/

theorem trimL_eq_edgeTrim (l : Line) : trimL l = edgeTrim isWSChar l := rfl

theorem trimBlanksEnds_eq_edgeTrim (b : List Line) :
    trimBlanksEnds b = edgeTrim isBlankL b := rfl

theorem edgeTrim_getLast_not {α : Type} (p : α → Bool) (l : List α) (a : α)
    (h : (edgeTrim p l).getLast? = some a) : p a = false := by
  unfold edgeTrim at h
  rw [List.getLast?_reverse] at h
  have hh := List.head?_dropWhile_not p (l.dropWhile p).reverse
  rw [h] at hh
  simpa using hh

theorem edgeTrim_head_not {α : Type} (p : α → Bool) (l : List α) (a : α)
    (h : (edgeTrim p l).head? = some a) : p a = false := by
  unfold edgeTrim at h
  rw [List.head?_reverse] at h
  set Z := l.dropWhile p with hZ
  set W := Z.reverse.dropWhile p with hW
  have hWne : W ≠ [] := by
    intro hcon
    rw [hcon] at h
    simp at h
  have hsuf : W <:+ Z.reverse := List.dropWhile_suffix p
  obtain ⟨pre, hpre⟩ := hsuf
  have h3 : (Z.reverse).getLast? = some a := by
    rw [← hpre, List.getLast?_append_of_ne_nil pre hWne]
    exact h
  rw [List.getLast?_reverse] at h3
  have hh := List.head?_dropWhile_not p l
  rw [hZ] at h3
  rw [h3] at hh
  simpa using hh

theorem edgeTrim_append_one {α : Type} (p : α → Bool) (l : List α) (x : α)
    (hx : p x = true) : edgeTrim p (edgeTrim p l ++ [x]) = edgeTrim p l := by
  cases hT : edgeTrim p l with
  | nil =>
    unfold edgeTrim
    rw [List.nil_append]
    have h1 : ([x] : List α).dropWhile p = [] := by
      simp [List.dropWhile, hx]
    rw [h1]
    rfl
  | cons h0 t0 =>
    have hhead : p h0 = false := by
      apply edgeTrim_head_not p l
      rw [hT]; rfl
    have hlast : ∀ b, (h0 :: t0).getLast? = some b → p b = false := by
      intro b hb
      apply edgeTrim_getLast_not p l
      rw [hT]; exact hb
    unfold edgeTrim
    have h1 : ((h0 :: t0) ++ [x]).dropWhile p = (h0 :: t0) ++ [x] := by
      rw [List.cons_append,
        List.dropWhile_cons_of_neg (by simp [hhead] : ¬ p h0 = true)]
    rw [h1, List.reverse_append]
    have h2 : (([x].reverse ++ (h0 :: t0).reverse).dropWhile p) =
        (h0 :: t0).reverse.dropWhile p := by
      simp only [List.reverse_singleton, List.singleton_append]
      rw [List.dropWhile_cons_of_pos (by simp [hx] : p x = true)]
    rw [h2]
    have h3 : (h0 :: t0).reverse.dropWhile p = (h0 :: t0).reverse := by
      cases hr : (h0 :: t0).reverse with
      | nil => simp at hr
      | cons r rs =>
        have hlr : (h0 :: t0).getLast? = some r := by
          rw [← List.head?_reverse, hr]; rfl
        rw [List.dropWhile_cons_of_neg
          (by simp [hlast r hlr] : ¬ p r = true)]
    rw [h3, List.reverse_reverse]

/-! ## Classifier facts -/

theorem datePrefixB_cons_false (c : Char) (r : List Char)
    (hc : isDig c = false) : datePrefixB (c :: r) = false := by
  rcases r with _ | ⟨c2, _ | ⟨c3, _ | ⟨c4, _ | ⟨c5, _ | ⟨c6, _ | ⟨c7, _ |
    ⟨c8, _ | ⟨c9, _ | ⟨c10, r'⟩⟩⟩⟩⟩⟩⟩⟩⟩ <;> simp [datePrefixB, hc]

theorem asciiUpper_idem (c : Char) :
    asciiUpper (asciiUpper c) = asciiUpper c := by
  unfold asciiUpper
  by_cases hc : ('a' ≤ c && c ≤ 'z') = true
  · rw [if_pos hc]
    rw [Bool.and_eq_true, decide_eq_true_eq, decide_eq_true_eq] at hc
    have h97 : 97 ≤ c.toNat := hc.1
    have h122 : c.toNat ≤ 122 := hc.2
    have ht : (Char.ofNat (c.toNat - 32)).toNat = c.toNat - 32 :=
      char_ofNat_toNat _ (by omega)
    rw [if_neg]
    rw [Bool.and_eq_true, decide_eq_true_eq, decide_eq_true_eq]
    intro hcon
    have h1 : 97 ≤ (Char.ofNat (c.toNat - 32)).toNat := hcon.1
    omega
  · rw [if_neg hc, if_neg hc]

theorem map_asciiUpper_idem (m : List Char) :
    (m.map asciiUpper).map asciiUpper = m.map asciiUpper := by
  rw [List.map_map]
  apply List.map_congr_left
  intro c _
  exact asciiUpper_idem c

theorem headerMid_of_bracketed (m : List Char) :
    headerMid ('[' :: m ++ [']']) = some m := by
  have h1 : (m ++ [']']).getLast? = some ']' := by
    rw [List.getLast?_append_of_ne_nil m (by simp)]
    rfl
  simp [headerMid, h1]

theorem GoodKey_trim (h : Line) (hG : GoodKey h) : trimL h = h := by
  obtain ⟨m, rfl, _, _⟩ := hG
  unfold trimL
  have h1 : ('[' :: m ++ [']']).dropWhile isWSChar = '[' :: m ++ [']'] := by
    show List.dropWhile isWSChar ('[' :: (m ++ [']'])) = '[' :: (m ++ [']'])
    rw [List.dropWhile_cons_of_neg (show ¬ isWSChar '[' = true by decide)]
  rw [h1]
  have h2 : ('[' :: m ++ [']']).reverse = ']' :: (m.reverse ++ ['[']) := by
    simp
  rw [h2, List.dropWhile_cons_of_neg (show ¬ isWSChar ']' = true by decide),
    ← h2, List.reverse_reverse]

theorem GoodKey_headerMid (h : Line) (hG : GoodKey h) :
    ∃ m, headerMid (trimL h) = some m ∧ '[' :: m.map asciiUpper ++ [']'] = h := by
  obtain ⟨m, hm, hup, hnl⟩ := hG
  refine ⟨m, ?_, ?_⟩
  · rw [GoodKey_trim h ⟨m, hm, hup, hnl⟩, hm]
    exact headerMid_of_bracketed m
  · rw [hup, ← hm]

theorem GoodKey_not_date (h : Line) (hG : GoodKey h) :
    isFullDateL h = false := by
  obtain ⟨m, hm, hup, hnl⟩ := hG
  unfold isFullDateL
  rw [GoodKey_trim h ⟨m, hm, hup, hnl⟩, hm]
  have hd : datePrefixB ('[' :: m ++ [']']) = false :=
    datePrefixB_cons_false '[' _ (by decide)
  dsimp only
  rw [hd, Bool.and_false]

theorem GoodKey_not_sep (h : Line) (hG : GoodKey h) :
    startsWithL (str "==") h = false := by
  obtain ⟨m, rfl, _, _⟩ := hG
  rfl

theorem startsWith_eqeq_shape (l : Line)
    (h : startsWithL (str "==") l = true) :
    ∃ rest, l = '=' :: '=' :: rest := by
  rcases l with _ | ⟨a, _ | ⟨b, rest⟩⟩
  · simp [str, startsWithL] at h
  · simp [str, startsWithL] at h
  · simp only [str, startsWithL, Bool.and_eq_true, decide_eq_true_eq] at h
    obtain ⟨ha, hb, _⟩ := h
    exact ⟨rest, by rw [← ha, ← hb]⟩

theorem sep_not_date (s : Line) (hs : trimL s = s)
    (hsep : startsWithL (str "==") s = true) : isFullDateL s = false := by
  obtain ⟨rest, rfl⟩ := startsWith_eqeq_shape s hsep
  unfold isFullDateL
  rw [hs]
  have hd : datePrefixB ('=' :: '=' :: rest) = false :=
    datePrefixB_cons_false '=' _ (by decide)
  dsimp only
  rw [hd, Bool.and_false]

theorem GoodBodyLine_nil : GoodBodyLine [] := by
  refine ⟨by simp, by decide, by decide⟩

theorem isFullDateL_trimL (l : Line) : isFullDateL (trimL l) = isFullDateL l := by
  unfold isFullDateL
  rw [trimL_idem]

theorem sepPrefixB_trimL (l : Line) : sepPrefixB (trimL l) = sepPrefixB l := by
  unfold sepPrefixB
  rw [trimL_idem]

theorem headerMid_subset (t : Line) (m : Line) (h : headerMid t = some m) :
    ∀ c ∈ m, c ∈ t := by
  unfold headerMid at h
  split at h
  case h_1 rest =>
    split at h
    case h_1 heq =>
      simp only [Option.some.injEq] at h
      subst h
      intro c hc
      exact List.mem_cons_of_mem _ ((List.dropLast_sublist rest).subset hc)
    case h_2 => simp at h
  case h_2 => simp at h

theorem asciiUpper_ne_newline (c : Char) (h : c ≠ '\n') :
    asciiUpper c ≠ '\n' := by
  unfold asciiUpper
  by_cases hc : ('a' ≤ c && c ≤ 'z') = true
  · rw [if_pos hc]
    rw [Bool.and_eq_true, decide_eq_true_eq, decide_eq_true_eq] at hc
    have h97 : 97 ≤ c.toNat := hc.1
    have h122 : c.toNat ≤ 122 := hc.2
    have ht : (Char.ofNat (c.toNat - 32)).toNat = c.toNat - 32 :=
      char_ofNat_toNat _ (by omega)
    intro hcon
    have := congrArg Char.toNat hcon
    rw [ht] at this
    have hn : ('\n' : Char).toNat = 10 := by decide
    omega
  · rw [if_neg hc]
    exact h

theorem splitBlocks_mem (L : List Line) :
    (∀ l ∈ (splitBlocks L).1, isFullDateL l = false ∧ l ∈ L) ∧
    (∀ b ∈ (splitBlocks L).2, isFullDateL b.1 = true ∧ b.1 ∈ L ∧
      ∀ l ∈ b.2, isFullDateL l = false ∧ l ∈ L) := by
  induction L with
  | nil => exact ⟨by simp [splitBlocks], by simp [splitBlocks]⟩
  | cons x rest ih =>
    by_cases hx : isFullDateL x = true
    · constructor
      · intro l hl
        rw [splitBlocks] at hl
        simp only [hx, if_pos rfl] at hl
        simp at hl
      · intro b hb
        rw [splitBlocks] at hb
        simp only [hx, if_pos rfl] at hb
        rcases List.mem_cons.mp hb with rfl | hb
        · refine ⟨hx, List.mem_cons_self _ _, ?_⟩
          intro l hl
          obtain ⟨h1, h2⟩ := ih.1 l hl
          exact ⟨h1, List.mem_cons_of_mem _ h2⟩
        · obtain ⟨h1, h2, h3⟩ := ih.2 b hb
          exact ⟨h1, List.mem_cons_of_mem _ h2, fun l hl =>
            ⟨(h3 l hl).1, List.mem_cons_of_mem _ (h3 l hl).2⟩⟩
    · have hx' : isFullDateL x = false := by
        simpa [Bool.not_eq_true] using hx
      constructor
      · intro l hl
        rw [splitBlocks] at hl
        simp only [hx', Bool.false_eq_true, if_false] at hl
        rcases List.mem_cons.mp hl with rfl | hl
        · exact ⟨hx', List.mem_cons_self _ _⟩
        · obtain ⟨h1, h2⟩ := ih.1 l hl
          exact ⟨h1, List.mem_cons_of_mem _ h2⟩
      · intro b hb
        rw [splitBlocks] at hb
        simp only [hx', Bool.false_eq_true, if_false] at hb
        obtain ⟨h1, h2, h3⟩ := ih.2 b hb
        exact ⟨h1, List.mem_cons_of_mem _ h2, fun l hl =>
          ⟨(h3 l hl).1, List.mem_cons_of_mem _ (h3 l hl).2⟩⟩

/-- Lines without a full-date header only extend the prefix. -/
theorem splitBlocks_append_nondate (m L : List Line)
    (hm : ∀ l ∈ m, isFullDateL l = false) :
    splitBlocks (m ++ L) =
      (m ++ (splitBlocks L).1, (splitBlocks L).2) := by
  induction m with
  | nil => simp
  | cons x xs ih =>
    have hx : isFullDateL x = false := hm x (List.mem_cons_self _ _)
    have hxs : ∀ l ∈ xs, isFullDateL l = false := fun l hl =>
      hm l (List.mem_cons_of_mem _ hl)
    rw [List.cons_append, splitBlocks, ih hxs]
    simp [hx]

theorem splitBlocks_cons_date (d : Line) (L : List Line)
    (hd : isFullDateL d = true) :
    splitBlocks (d :: L) =
      ([], (d, (splitBlocks L).1) :: (splitBlocks L).2) := by
  rw [splitBlocks]
  simp [hd]

/-! ## Invariant preservation through parsing and merging -/

theorem secKeys_ensureSec (secs : List (Line × List Line)) (h : Line) :
    secKeys (ensureSec secs h) =
      if h ∈ secKeys secs then secKeys secs else secKeys secs ++ [h] := by
  unfold ensureSec secKeys
  by_cases hmem : h ∈ secs.map Prod.fst
  · rw [if_pos hmem, if_pos hmem]
  · rw [if_neg hmem, if_neg hmem]
    simp

theorem GoodSecs_ensureSec (secs : List (Line × List Line)) (h : Line)
    (hG : GoodSecs secs) (hK : GoodKey h) : GoodSecs (ensureSec secs h) := by
  unfold ensureSec
  by_cases hmem : h ∈ secKeys secs
  · rw [if_pos hmem]; exact hG
  · rw [if_neg hmem]
    constructor
    · intro p hp
      rcases List.mem_append.mp hp with hp | hp
      · exact hG.1 p hp
      · simp only [List.mem_singleton] at hp
        subst hp
        exact ⟨hK, by simp⟩
    · have : secKeys (secs ++ [(h, [])]) = secKeys secs ++ [h] := by
        simp [secKeys]
      rw [this]
      simp only [List.nodup_append]
      exact ⟨hG.2, List.nodup_singleton h, by simpa using hmem⟩

theorem pushLine_entries (secs : List (Line × List Line)) (h l : Line) :
    ∀ p ∈ pushLine secs h l, ∃ q ∈ secs, p.1 = q.1 ∧
      (p.2 = q.2 ∨ p.2 = q.2 ++ [l]) := by
  induction secs with
  | nil => simp [pushLine]
  | cons q t ih =>
    obtain ⟨k, v⟩ := q
    intro p hp
    rw [pushLine] at hp
    by_cases hk : k = h
    · rw [if_pos hk] at hp
      rcases List.mem_cons.mp hp with rfl | hp
      · exact ⟨(k, v), List.mem_cons_self _ _, rfl, Or.inr rfl⟩
      · exact ⟨p, List.mem_cons_of_mem _ hp, rfl, Or.inl rfl⟩
    · rw [if_neg hk] at hp
      rcases List.mem_cons.mp hp with rfl | hp
      · exact ⟨(k, v), List.mem_cons_self _ _, rfl, Or.inl rfl⟩
      · obtain ⟨q', hq', h1, h2⟩ := ih p hp
        exact ⟨q', List.mem_cons_of_mem _ hq', h1, h2⟩

theorem secKeys_pushLine (secs : List (Line × List Line)) (h l : Line) :
    secKeys (pushLine secs h l) = secKeys secs := by
  induction secs with
  | nil => rfl
  | cons q t ih =>
    obtain ⟨k, v⟩ := q
    rw [pushLine]
    by_cases hk : k = h
    · rw [if_pos hk]; rfl
    · rw [if_neg hk]
      simp only [secKeys, List.map_cons] at ih ⊢
      rw [ih]

theorem GoodSecs_pushLine (secs : List (Line × List Line)) (h l : Line)
    (hG : GoodSecs secs) (hl : GoodBodyLine l) :
    GoodSecs (pushLine secs h l) := by
  constructor
  · intro p hp
    obtain ⟨q, hq, h1, h2⟩ := pushLine_entries secs h l p hp
    obtain ⟨hk, hb⟩ := hG.1 q hq
    refine ⟨h1 ▸ hk, ?_⟩
    intro x hx
    rcases h2 with h2 | h2
    · exact hb x (h2 ▸ hx)
    · rw [h2] at hx
      rcases List.mem_append.mp hx with hx | hx
      · exact hb x hx
      · simp only [List.mem_singleton] at hx
        subst hx
        exact hl
  · rw [secKeys_pushLine]
    exact hG.2

theorem parseSecsAux_good (bl : List Line) (cur : Option Line)
    (acc : List (Line × List Line)) (hG : GoodSecs acc)
    (hbl : ∀ l ∈ bl, '\n' ∉ l ∧ isFullDateL l = false) :
    GoodSecs (parseSecsAux cur acc bl) := by
  induction bl generalizing cur acc with
  | nil => exact hG
  | cons l rest ih =>
    have hl := hbl l (List.mem_cons_self _ _)
    have hrest : ∀ x ∈ rest, '\n' ∉ x ∧ isFullDateL x = false := fun x hx =>
      hbl x (List.mem_cons_of_mem _ hx)
    rw [parseSecsAux.eq_def]
    cases hm : headerMid (trimL l) with
    | some mid =>
      dsimp only
      rw [hm]
      apply ih _ _ _ hrest
      apply GoodSecs_ensureSec _ _ hG
      refine ⟨mid.map asciiUpper, rfl, map_asciiUpper_idem mid, ?_⟩
      intro hmem
      rcases List.mem_cons.mp hmem with hc | hc
      · exact absurd hc.symm (by decide)
      · rcases List.mem_append.mp hc with hc | hc
        · rw [List.mem_map] at hc
          obtain ⟨c0, hc0, hc0e⟩ := hc
          have hc0l : c0 ∈ l :=
            trimL_subset l c0 (headerMid_subset _ _ hm c0 hc0)
          have hc0ne : c0 ≠ '\n' := fun hcon => hl.1 (hcon ▸ hc0l)
          exact asciiUpper_ne_newline c0 hc0ne hc0e
        · simp at hc
    | none =>
      dsimp only
      rw [hm]
      dsimp only
      cases cur with
      | some h =>
        dsimp only
        exact ih _ _ (GoodSecs_pushLine _ _ _ hG ⟨hl.1, hl.2, hm⟩) hrest
      | none =>
        dsimp only
        exact ih _ _ hG hrest

theorem mergeBody_mem (cur inc : List Line) :
    ∀ x ∈ mergeBody cur inc, x ∈ cur ∨ x ∈ inc := by
  unfold mergeBody
  induction inc generalizing cur with
  | nil => intro x hx; exact Or.inl hx
  | cons l rest ih =>
    intro x hx
    rw [List.foldl_cons] at hx
    set step := fun (cur : List Line) l =>
      if isBlankL l = true then
        match cur.getLast? with
        | none => cur ++ [l]
        | some last => if isBlankL last = true then cur else cur ++ [l]
      else if l ∈ cur then cur else cur ++ [l] with hstep
    have hone : ∀ y ∈ step cur l, y ∈ cur ∨ y = l := by
      intro y hy
      rw [hstep] at hy
      dsimp only at hy
      split at hy
      · split at hy
        · rcases List.mem_append.mp hy with hy | hy
          · exact Or.inl hy
          · simp at hy; exact Or.inr hy
        · split at hy
          · exact Or.inl hy
          · rcases List.mem_append.mp hy with hy | hy
            · exact Or.inl hy
            · simp at hy; exact Or.inr hy
      · split at hy
        · exact Or.inl hy
        · rcases List.mem_append.mp hy with hy | hy
          · exact Or.inl hy
          · simp at hy; exact Or.inr hy
    rcases ih (step cur l) x hx with hx1 | hx1
    · rcases hone x hx1 with hx2 | hx2
      · exact Or.inl hx2
      · exact Or.inr (hx2 ▸ List.mem_cons_self _ _)
    · exact Or.inr (List.mem_cons_of_mem _ hx1)

theorem secKeys_updateSec (secs : List (Line × List Line)) (h : Line)
    (inc : List Line) : secKeys (updateSec secs h inc) = secKeys secs := by
  induction secs with
  | nil => rfl
  | cons q t ih =>
    obtain ⟨k, v⟩ := q
    rw [updateSec]
    by_cases hk : k = h
    · rw [if_pos hk]; rfl
    · rw [if_neg hk]
      simp only [secKeys, List.map_cons] at ih ⊢
      rw [ih]

theorem updateSec_entries (secs : List (Line × List Line)) (h : Line)
    (inc : List Line) :
    ∀ p ∈ updateSec secs h inc, ∃ q ∈ secs, p.1 = q.1 ∧
      (p.2 = q.2 ∨ p.2 = mergeBody q.2 inc) := by
  induction secs with
  | nil => simp [updateSec]
  | cons q t ih =>
    obtain ⟨k, v⟩ := q
    intro p hp
    rw [updateSec] at hp
    by_cases hk : k = h
    · rw [if_pos hk] at hp
      rcases List.mem_cons.mp hp with rfl | hp
      · exact ⟨(k, v), List.mem_cons_self _ _, rfl, Or.inr rfl⟩
      · exact ⟨p, List.mem_cons_of_mem _ hp, rfl, Or.inl rfl⟩
    · rw [if_neg hk] at hp
      rcases List.mem_cons.mp hp with rfl | hp
      · exact ⟨(k, v), List.mem_cons_self _ _, rfl, Or.inl rfl⟩
      · obtain ⟨q', hq', h1, h2⟩ := ih p hp
        exact ⟨q', List.mem_cons_of_mem _ hq', h1, h2⟩

/-- Good-sections preservation through the section merge. -/
theorem GoodSecs_mergeSecs (cur inc : List (Line × List Line))
    (hG : GoodSecs cur)
    (hinc : ∀ p ∈ inc, GoodKey p.1 ∧ ∀ l ∈ p.2, GoodBodyLine l) :
    GoodSecs (mergeSecs cur inc) := by
  induction inc generalizing cur with
  | nil => exact hG
  | cons p rest ih =>
    obtain ⟨h, body⟩ := p
    have hp := hinc (h, body) (List.mem_cons_self _ _)
    have hrest : ∀ q ∈ rest, GoodKey q.1 ∧ ∀ l ∈ q.2, GoodBodyLine l :=
      fun q hq => hinc q (List.mem_cons_of_mem _ hq)
    rw [mergeSecs]
    by_cases hmem : h ∈ secKeys cur
    · rw [if_pos hmem]
      apply ih _ _ hrest
      constructor
      · intro q hq
        obtain ⟨q', hq', h1, h2⟩ := updateSec_entries cur h body q hq
        obtain ⟨hk, hb⟩ := hG.1 q' hq'
        refine ⟨h1 ▸ hk, ?_⟩
        intro x hx
        rcases h2 with h2 | h2
        · exact hb x (h2 ▸ hx)
        · rw [h2] at hx
          rcases mergeBody_mem q'.2 body x hx with hx | hx
          · exact hb x hx
          · exact hp.2 x hx
      · rw [secKeys_updateSec]
        exact hG.2
    · rw [if_neg hmem]
      apply ih _ _ hrest
      constructor
      · intro q hq
        rcases List.mem_append.mp hq with hq | hq
        · exact hG.1 q hq
        · simp only [List.mem_singleton] at hq
          subst hq
          exact hp
      · have : secKeys (cur ++ [(h, body)]) = secKeys cur ++ [h] := by
          simp [secKeys]
        rw [this, List.nodup_append]
        exact ⟨hG.2, List.nodup_singleton h, by simpa using hmem⟩

theorem mergeDay_dates (days : List DayAcc) (date sep : Line)
    (secs : List (Line × List Line)) :
    (mergeDay days date sep secs).map DayAcc.date =
      if date ∈ days.map DayAcc.date then days.map DayAcc.date
      else days.map DayAcc.date ++ [date] := by
  induction days with
  | nil => simp [mergeDay]
  | cons d t ih =>
    rw [mergeDay]
    by_cases hd : d.date = date
    · rw [if_pos hd]
      have : date ∈ (d :: t).map DayAcc.date := by
        simp [← hd]
      rw [if_pos this]
      simp
    · rw [if_neg hd]
      simp only [List.map_cons, List.mem_cons]
      by_cases hmem : date ∈ t.map DayAcc.date
      · rw [if_pos (Or.inr hmem)]
        simp only [List.map_cons] at ih
        rw [ih, if_pos hmem]
      · have hne : ¬ (date = d.date ∨ date ∈ t.map DayAcc.date) := by
          intro hcon
          rcases hcon with hcon | hcon
          · exact hd hcon.symm
          · exact hmem hcon
        rw [if_neg hne]
        simp only [List.map_cons] at ih
        rw [ih, if_neg hmem]
        simp

theorem GoodDays_mergeDay (days : List DayAcc) (date sep : Line)
    (secs : List (Line × List Line)) (hG : GoodDays days)
    (hdate : isFullDateL date = true ∧ trimL date = date ∧ '\n' ∉ date)
    (hsep : trimL sep = sep ∧ startsWithL (str "==") sep = true ∧ '\n' ∉ sep)
    (hsecs : GoodSecs secs) :
    GoodDays (mergeDay days date sep secs) := by
  induction days with
  | nil =>
    refine ⟨?_, by simp [mergeDay]⟩
    intro d hd
    rw [mergeDay] at hd
    simp only [List.mem_singleton] at hd
    subst hd
    exact ⟨hdate, hsep, hsecs⟩
  | cons d t ih =>
    have hdG := hG.1 d (List.mem_cons_self _ _)
    have htG : GoodDays t :=
      ⟨fun x hx => hG.1 x (List.mem_cons_of_mem _ hx),
        (List.nodup_cons.mp hG.2).2⟩
    rw [mergeDay]
    by_cases hd : d.date = date
    · rw [if_pos hd]
      constructor
      · intro x hx
        rcases List.mem_cons.mp hx with rfl | hx
        · exact ⟨hdG.1, hdG.2.1,
            GoodSecs_mergeSecs _ _ hdG.2.2 (fun p hp => (hsecs.1 p hp))⟩
        · exact htG.1 x hx
      · simpa using hG.2
    · rw [if_neg hd]
      have hrec := ih htG
      constructor
      · intro x hx
        rcases List.mem_cons.mp hx with rfl | hx
        · exact hdG
        · exact hrec.1 x hx
      · simp only [List.map_cons, List.nodup_cons]
        refine ⟨?_, hrec.2⟩
        rw [mergeDay_dates]
        by_cases hmem : date ∈ t.map DayAcc.date
        · rw [if_pos hmem]
          exact (List.nodup_cons.mp hG.2).1
        · rw [if_neg hmem]
          intro hcon
          rcases List.mem_append.mp hcon with hcon | hcon
          · exact (List.nodup_cons.mp hG.2).1 hcon
          · simp only [List.mem_singleton] at hcon
            exact hd hcon

/-- The day accumulator built from newline-free lines is well formed. -/
theorem parseDays_good (lines : List Line) (h : ∀ l ∈ lines, '\n' ∉ l) :
    GoodDays (parseDays lines) := by
  unfold parseDays parseBlocks
  have hblocks := (splitBlocks_mem lines).2
  have hstep : ∀ (acc : List DayAcc) (bl : List (Line × List Line)),
      GoodDays acc →
      (∀ b ∈ bl, isFullDateL b.1 = true ∧ b.1 ∈ lines ∧
        ∀ l ∈ b.2, isFullDateL l = false ∧ l ∈ lines) →
      GoodDays (bl.foldl (fun days b =>
        let sb := blockSep b.2
        mergeDay days (trimL b.1) sb.1 (parseSecs sb.2)) acc) := by
    intro acc bl
    induction bl generalizing acc with
    | nil => intro hacc _; exact hacc
    | cons b rest ih =>
      intro hacc hbl
      obtain ⟨hbd, hbm, hbody⟩ := hbl b (List.mem_cons_self _ _)
      rw [List.foldl_cons]
      apply ih
      · apply GoodDays_mergeDay _ _ _ _ hacc
        · refine ⟨by rw [isFullDateL_trimL]; exact hbd, trimL_idem b.1, ?_⟩
          exact noNL_of_subset (trimL_subset b.1) (h b.1 hbm)
        · unfold blockSep
          cases hb2 : b.2 with
          | nil =>
            exact ⟨by decide, by decide, by decide⟩
          | cons x rest2 =>
            dsimp only
            by_cases hsep : sepPrefixB x = true
            · rw [if_pos hsep]
              refine ⟨trimL_idem x, hsep, ?_⟩
              have hx : x ∈ lines := by
                have := (hbody x (by rw [hb2]; exact List.mem_cons_self _ _)).2
                exact this
              exact noNL_of_subset (trimL_subset x) (h x hx)
            · rw [if_neg hsep]
              dsimp only
              exact ⟨by decide, by decide, by decide⟩
        · unfold parseSecs
          apply parseSecsAux_good _ _ _ ⟨by simp, by simp [secKeys]⟩
          intro l hl
          have hmem : l ∈ b.2 := by
            unfold blockSep at hl
            cases hb2 : b.2 with
            | nil => rw [hb2] at hl; simp at hl
            | cons x rest2 =>
              rw [hb2] at hl
              dsimp only at hl
              by_cases hsep : sepPrefixB x = true
              · rw [if_pos hsep] at hl
                dsimp only at hl
                exact List.mem_cons_of_mem _ hl
              · rw [if_neg hsep] at hl
                dsimp only at hl
                exact hl
          obtain ⟨h1, h2⟩ := hbody l hmem
          exact ⟨h l h2, h1⟩
      · intro x hx
        exact hbl x (List.mem_cons_of_mem _ hx)
  exact hstep [] _ ⟨by simp, by simp⟩ hblocks

/-! ## Reparsing the rebuilt document -/

theorem edgeTrim_subset {α : Type} (p : α → Bool) (l : List α) :
    ∀ x ∈ edgeTrim p l, x ∈ l := by
  intro x hx
  unfold edgeTrim at hx
  rw [List.mem_reverse] at hx
  have h1 := List.Sublist.subset (List.dropWhile_sublist _) hx
  rw [List.mem_reverse] at h1
  exact List.Sublist.subset (List.dropWhile_sublist _) h1

theorem lookupSec_mem (secs : List (Line × List Line)) (h : Line)
    (v : List Line) (hl : lookupSec secs h = some v) : (h, v) ∈ secs := by
  induction secs with
  | nil => simp [lookupSec] at hl
  | cons q t ih =>
    obtain ⟨k, w⟩ := q
    rw [lookupSec] at hl
    by_cases hk : k = h
    · rw [if_pos hk] at hl
      simp only [Option.some.injEq] at hl
      subst hk; subst hl
      exact List.mem_cons_self _ _
    · rw [if_neg hk] at hl
      exact List.mem_cons_of_mem _ (ih hl)

theorem lookupSec_map (L : List Line) (f : Line → List Line) (x : Line) :
    lookupSec (L.map (fun h => (h, f h))) x =
      if x ∈ L then some (f x) else none := by
  induction L with
  | nil => simp [lookupSec]
  | cons h t ih =>
    rw [List.map_cons, lookupSec]
    by_cases hx : h = x
    · subst hx
      rw [if_pos rfl, if_pos (List.mem_cons_self _ _)]
    · rw [if_neg hx, ih]
      by_cases hm : x ∈ t
      · rw [if_pos hm, if_pos (List.mem_cons_of_mem _ hm)]
      · rw [if_neg hm, if_neg ?_]
        intro hc
        rcases List.mem_cons.mp hc with hc | hc
        · exact hx hc.symm
        · exact hm hc

theorem mem_joinSecChunks (cs : List (List Line)) (x : Line)
    (hx : x ∈ joinSecChunks cs) : (∃ c ∈ cs, x ∈ c) ∨ x = [] := by
  induction cs with
  | nil => simp [joinSecChunks] at hx
  | cons c rest ih =>
    cases hr : rest with
    | nil =>
      rw [hr] at hx
      rw [joinSecChunks] at hx
      exact Or.inl ⟨c, List.mem_cons_self _ _, hx⟩
    | cons c2 rest2 =>
      rw [hr] at hx
      rw [joinSecChunks] at hx
      rcases List.mem_append.mp hx with hx | hx
      · rcases List.mem_append.mp hx with hx | hx
        · exact Or.inl ⟨c, List.mem_cons_self _ _, hx⟩
        · simp only [List.mem_singleton] at hx
          exact Or.inr hx
      · rw [← hr] at hx
        rcases ih (hr ▸ hx) with ⟨c', hc', hxc⟩ | hx
        · exact Or.inl ⟨c', List.mem_cons_of_mem _ (hr ▸ hc'), hxc⟩
        · exact Or.inr hx

theorem mem_secChunk (d : DayAcc) (h : Line) (x : Line)
    (hx : x ∈ secChunk d h) :
    x = h ∨ ∃ v, lookupSec d.secs h = some v ∧ x ∈ v := by
  unfold secChunk at hx
  rcases List.mem_cons.mp hx with rfl | hx
  · exact Or.inl rfl
  · cases hl : lookupSec d.secs h with
    | none =>
      rw [hl] at hx
      simp [trimBlanksEnds] at hx
    | some v =>
      rw [hl] at hx
      refine Or.inr ⟨v, rfl, ?_⟩
      rw [trimBlanksEnds_eq_edgeTrim] at hx
      exact edgeTrim_subset _ _ x hx

theorem preferred_goodKey (h : Line) (hh : h ∈ preferredHeaders) :
    GoodKey h := by
  unfold preferredHeaders at hh
  simp only [List.mem_cons, List.mem_singleton] at hh
  rcases hh with rfl | rfl | rfl | rfl | rfl | hh
  · exact ⟨str "EVENTS", by decide, by decide, by decide⟩
  · exact ⟨str "DOING", by decide, by decide, by decide⟩
  · exact ⟨str "BACKLOG", by decide, by decide, by decide⟩
  · exact ⟨str "DONE", by decide, by decide, by decide⟩
  · exact ⟨str "NOTES", by decide, by decide, by decide⟩
  · simp at hh

theorem headersOf_goodKey (d : DayAcc) (hG : GoodSecs d.secs) :
    ∀ h ∈ headersOf d, GoodKey h := by
  intro h hh
  unfold headersOf at hh
  rcases List.mem_append.mp hh with hh | hh
  · exact preferred_goodKey h (List.mem_of_mem_filter hh)
  · have hk : h ∈ secKeys d.secs := List.mem_of_mem_filter hh
    unfold secKeys at hk
    rw [List.mem_map] at hk
    obtain ⟨p, hp, rfl⟩ := hk
    exact (hG.1 p hp).1

theorem headersOf_nodup (d : DayAcc) (hG : GoodSecs d.secs) :
    (headersOf d).Nodup := by
  unfold headersOf
  rw [List.nodup_append]
  refine ⟨List.Nodup.filter _ (by decide), List.Nodup.filter _ hG.2, ?_⟩
  intro x hx hx2
  have h1 : x ∈ preferredHeaders := List.mem_of_mem_filter hx
  have h2 := List.of_mem_filter hx2
  simp only [Bool.not_eq_true', decide_eq_false_iff_not] at h2
  exact h2 h1

/-- A full-date line is nonempty. -/
theorem date_ne_nil (l : Line) (h : isFullDateL l = true) : l ≠ [] := by
  intro hcon
  subst hcon
  exact absurd h (by decide)

theorem mem_dayTail (d : DayAcc) (hG : GoodDay d) :
    ∀ l ∈ dayTail d, '\n' ∉ l ∧ isFullDateL l = false := by
  intro l hl
  unfold dayTail at hl
  rcases List.mem_cons.mp hl with rfl | hl
  · exact ⟨hG.2.1.2.2, sep_not_date _ hG.2.1.1 hG.2.1.2.1⟩
  · rcases List.mem_append.mp hl with hl | hl
    · rcases mem_joinSecChunks _ _ hl with ⟨c, hc, hlc⟩ | rfl
      · rw [List.mem_map] at hc
        obtain ⟨h, hh, rfl⟩ := hc
        have hK : GoodKey h := headersOf_goodKey d hG.2.2 h hh
        rcases mem_secChunk d h l hlc with rfl | ⟨v, hv, hlv⟩
        · obtain ⟨m, hm, hup, hnl⟩ := hK
          exact ⟨hnl, GoodKey_not_date _ ⟨m, hm, hup, hnl⟩⟩
        · have hmem := lookupSec_mem _ _ _ hv
          have hB := (hG.2.2.1 (h, v) hmem).2 l hlv
          exact ⟨hB.1, hB.2.1⟩
      · exact ⟨by simp, by decide⟩
    · simp only [List.mem_singleton] at hl
      subst hl
      exact ⟨by simp, by decide⟩

theorem mergeDay_fresh (days : List DayAcc) (date sep : Line)
    (secs : List (Line × List Line)) (h : date ∉ days.map DayAcc.date) :
    mergeDay days date sep secs = days ++ [⟨date, sep, secs⟩] := by
  induction days with
  | nil => rfl
  | cons d t ih =>
    rw [mergeDay]
    simp only [List.map_cons, List.mem_cons] at h
    push_neg at h
    rw [if_neg (fun hc => h.1 hc.symm), ih h.2]
    rfl

theorem pushLine_append_fresh (acc : List (Line × List Line)) (h : Line)
    (v : List Line) (l : Line) (hout : h ∉ secKeys acc) :
    pushLine (acc ++ [(h, v)]) h l = acc ++ [(h, v ++ [l])] := by
  induction acc with
  | nil => simp [pushLine]
  | cons q t ih =>
    obtain ⟨k, w⟩ := q
    have hk : k ≠ h := by
      intro hc
      exact hout (by simp [secKeys, hc])
    have ht : h ∉ secKeys t := by
      intro hc
      apply hout
      unfold secKeys at hc ⊢
      simp only [List.map_cons, List.mem_cons]
      exact Or.inr hc
    rw [List.cons_append, pushLine, if_neg hk, ih ht]
    rfl

theorem foldl_pushLine_fresh (ls : List Line) :
    ∀ (v : List Line), ∀ (acc : List (Line × List Line)) (h : Line),
    h ∉ secKeys acc →
    ls.foldl (fun a l => pushLine a h l) (acc ++ [(h, v)]) =
      acc ++ [(h, v ++ ls)] := by
  induction ls with
  | nil => intro v acc h _; simp
  | cons l rest ih =>
    intro v acc h hout
    rw [List.foldl_cons]
    rw [pushLine_append_fresh acc h v l hout, ih (v ++ [l]) acc h hout]
    simp

theorem parseSecsAux_run (ls : List Line) :
    ∀ (acc : List (Line × List Line)) (h : Line) (rest : List Line),
    (∀ l ∈ ls, headerMid (trimL l) = none) →
    parseSecsAux (some h) acc (ls ++ rest) =
      parseSecsAux (some h) (ls.foldl (fun a l => pushLine a h l) acc)
        rest := by
  induction ls with
  | nil => intro acc h rest _; simp
  | cons l t ih =>
    intro acc h rest hls
    rw [List.cons_append, parseSecsAux.eq_def]
    dsimp only
    rw [hls l (List.mem_cons_self _ _)]
    dsimp only
    rw [List.foldl_cons]
    exact ih (pushLine acc h l) h rest
      (fun x hx => hls x (List.mem_cons_of_mem _ hx))

/-- Parsing the canonical rendering of sections (each section a good header
followed by non-header body lines and one blank) recovers exactly those
sections, the blank joining each body. -/
theorem parseSecsAux_canonical (ps : List (Line × List Line)) :
    ∀ (acc : List (Line × List Line)) (cur : Option Line),
    (∀ p ∈ ps, GoodKey p.1) →
    (∀ p ∈ ps, ∀ l ∈ p.2, headerMid (trimL l) = none) →
    (ps.map Prod.fst).Nodup →
    (∀ p ∈ ps, p.1 ∉ secKeys acc) →
    parseSecsAux cur acc
      (concatAll (ps.map (fun p => p.1 :: (p.2 ++ [[]])))) =
      acc ++ ps.map (fun p => (p.1, p.2 ++ [[]])) := by
  induction ps with
  | nil =>
    intro acc cur _ _ _ _
    rw [List.map_nil, List.map_nil, List.append_nil]
    show parseSecsAux cur acc [] = acc
    cases cur <;> rfl
  | cons p rest ih =>
    intro acc cur hkeys hbody hnd hdisj
    have hK : GoodKey p.1 := hkeys p (List.mem_cons_self _ _)
    obtain ⟨m, hm, hkey⟩ := GoodKey_headerMid p.1 hK
    rw [List.map_cons]
    rw [show concatAll ((p.1 :: (p.2 ++ [[]])) ::
        rest.map (fun p => p.1 :: (p.2 ++ [[]]))) =
      (p.1 :: (p.2 ++ [[]])) ++
        concatAll (rest.map (fun p => p.1 :: (p.2 ++ [[]]))) from rfl]
    rw [List.cons_append, parseSecsAux.eq_def]
    dsimp only
    rw [hm]
    dsimp only
    rw [hkey]
    have hens : ensureSec acc p.1 = acc ++ [(p.1, [])] := by
      unfold ensureSec
      rw [if_neg (hdisj p (List.mem_cons_self _ _))]
    rw [hens]
    have hbl : ∀ l ∈ p.2 ++ [[]], headerMid (trimL l) = none := by
      intro l hl
      rcases List.mem_append.mp hl with hl | hl
      · exact hbody p (List.mem_cons_self _ _) l hl
      · simp only [List.mem_singleton] at hl
        subst hl
        rfl
    rw [parseSecsAux_run (p.2 ++ [[]]) (acc ++ [(p.1, [])]) p.1 _ hbl]
    rw [foldl_pushLine_fresh (p.2 ++ [[]]) [] acc p.1
      (hdisj p (List.mem_cons_self _ _))]
    rw [List.nil_append]
    rw [List.map_cons] at hnd
    have hih := ih (acc ++ [(p.1, p.2 ++ [[]])]) (some p.1)
      (fun q hq => hkeys q (List.mem_cons_of_mem _ hq))
      (fun q hq => hbody q (List.mem_cons_of_mem _ hq))
      (List.nodup_cons.mp hnd).2
      (by
        intro q hq hc
        have h1 : q.1 ∉ secKeys acc := hdisj q (List.mem_cons_of_mem _ hq)
        unfold secKeys at hc h1
        rw [List.map_append] at hc
        rcases List.mem_append.mp hc with hc | hc
        · exact h1 hc
        · simp only [List.map_cons, List.map_nil, List.mem_singleton] at hc
          exact (List.nodup_cons.mp hnd).1
            (hc ▸ List.mem_map_of_mem Prod.fst hq))
    rw [hih, List.map_cons]
    simp

theorem joinSecChunks_blank (cs : List (List Line)) (h : cs ≠ []) :
    joinSecChunks cs ++ [[]] = concatAll (cs.map (fun c => c ++ [[]])) := by
  induction cs with
  | nil => exact absurd rfl h
  | cons c rest ih =>
    cases hr : rest with
    | nil =>
      rw [joinSecChunks, List.map_cons, List.map_nil]
      show c ++ [[]] = (c ++ [[]]) ++ concatAll []
      rw [show concatAll [] = [] from rfl, List.append_nil]
    | cons c2 rest2 =>
      subst hr
      rw [joinSecChunks, List.map_cons]
      rw [show concatAll ((c ++ [[]]) :: (c2 :: rest2).map (fun c => c ++ [[]]))
        = (c ++ [[]]) ++ concatAll ((c2 :: rest2).map (fun c => c ++ [[]]))
        from rfl]
      rw [← ih (by simp)]
      simp [List.append_assoc]

/-- The separator of a rebuilt day's tail is exactly the day's separator. -/
theorem blockSep_dayTail (d : DayAcc) (hG : GoodDay d) :
    blockSep (dayTail d) =
      (d.sep, joinSecChunks ((headersOf d).map (secChunk d)) ++ [[]]) := by
  unfold dayTail blockSep
  dsimp only
  have hsep : sepPrefixB d.sep = true := by
    unfold sepPrefixB
    rw [hG.2.1.1]
    exact hG.2.1.2.1
  rw [if_pos hsep, hG.2.1.1]

/-- Reparsing a rebuilt day's section stream recovers the reparsed
sections. -/
theorem parseSecs_dayTail (d : DayAcc) (hG : GoodDay d)
    (hbodies : ∀ p ∈ d.secs, ∀ l ∈ p.2, GoodBodyLine l) :
    parseSecs (joinSecChunks ((headersOf d).map (secChunk d)) ++ [[]]) =
      (reparse1 d).secs := by
  by_cases hh : headersOf d = []
  · unfold reparse1
    dsimp only
    rw [hh, List.map_nil, List.map_nil]
    rfl
  · have hne : (headersOf d).map (secChunk d) ≠ [] := by
      intro hc
      cases hh' : headersOf d with
      | nil => exact hh hh'
      | cons a b => rw [hh'] at hc; simp at hc
    rw [joinSecChunks_blank _ hne]
    have hmaps : ((headersOf d).map (secChunk d)).map (fun c => c ++ [[]]) =
        ((headersOf d).map (fun h =>
          (h, trimBlanksEnds ((lookupSec d.secs h).getD [])))).map
          (fun p => p.1 :: (p.2 ++ [[]])) := by
      rw [List.map_map, List.map_map]
      rfl
    rw [hmaps]
    set ps := (headersOf d).map (fun h =>
      (h, trimBlanksEnds ((lookupSec d.secs h).getD []))) with hps
    have hpsfst : ps.map Prod.fst = headersOf d := by
      rw [hps, List.map_map]
      exact List.map_id _
    have hres := parseSecsAux_canonical ps [] none
      (by
        intro p hp
        rw [hps, List.mem_map] at hp
        obtain ⟨h, hhm, rfl⟩ := hp
        exact headersOf_goodKey d hG.2.2 h hhm)
      (by
        intro p hp l hl
        rw [hps, List.mem_map] at hp
        obtain ⟨h, hhm, rfl⟩ := hp
        dsimp only at hl
        cases hlk : lookupSec d.secs h with
        | none =>
          rw [hlk] at hl
          simp [trimBlanksEnds] at hl
        | some v =>
          rw [hlk] at hl
          rw [trimBlanksEnds_eq_edgeTrim] at hl
          have hlv := edgeTrim_subset _ _ l hl
          exact ((hbodies (h, v) (lookupSec_mem _ _ _ hlk)) l hlv).2.2)
      (by rw [hpsfst]; exact headersOf_nodup d hG.2.2)
      (by intro p _ hc; simp [secKeys] at hc)
    unfold parseSecs
    rw [hres, List.nil_append, hps, List.map_map]
    unfold reparse1
    rfl

/-- Splitting the rebuilt document yields one block per accumulated day. -/
theorem splitBlocks_rebuilt (days : List DayAcc) (hG : GoodDays days) :
    splitBlocks (rebuiltLines days) =
      ([], days.map (fun d => (d.date, dayTail d))) := by
  induction days with
  | nil => rfl
  | cons d t ih =>
    have hdG : GoodDay d := hG.1 d (List.mem_cons_self _ _)
    have htG : GoodDays t :=
      ⟨fun x hx => hG.1 x (List.mem_cons_of_mem _ hx),
        (List.nodup_cons.mp hG.2).2⟩
    have hsplit : rebuiltLines (d :: t) =
        d.date :: (dayTail d ++ rebuiltLines t) := rfl
    rw [hsplit, splitBlocks_cons_date _ _ hdG.1.1,
      splitBlocks_append_nondate _ _
        (fun l hl => (mem_dayTail d hdG l hl).2),
      ih htG]
    simp

theorem parseBlocks_fresh (bs : List (Line × List Line)) :
    ∀ (acc : List DayAcc),
    (acc.map DayAcc.date ++ bs.map (fun b => trimL b.1)).Nodup →
    bs.foldl (fun days b =>
      let sb := blockSep b.2
      mergeDay days (trimL b.1) sb.1 (parseSecs sb.2)) acc =
    acc ++ bs.map (fun b =>
      ⟨trimL b.1, (blockSep b.2).1, parseSecs (blockSep b.2).2⟩) := by
  induction bs with
  | nil => intro acc _; simp
  | cons b t ih =>
    intro acc hnd
    rw [List.map_cons] at hnd
    rw [List.foldl_cons]
    have hfresh : trimL b.1 ∉ acc.map DayAcc.date := by
      intro hc
      have hd := List.disjoint_of_nodup_append hnd
      exact hd hc (List.mem_cons_self _ _)
    rw [show (let sb := blockSep b.2
        mergeDay acc (trimL b.1) sb.1 (parseSecs sb.2)) =
      mergeDay acc (trimL b.1) (blockSep b.2).1
        (parseSecs (blockSep b.2).2) from rfl]
    rw [mergeDay_fresh acc _ _ _ hfresh]
    have hnd2 : ((acc ++ [(⟨trimL b.1, (blockSep b.2).1,
        parseSecs (blockSep b.2).2⟩ : DayAcc)]).map DayAcc.date ++
        t.map (fun b => trimL b.1)).Nodup := by
      rw [List.map_append]
      show (acc.map DayAcc.date ++ [trimL b.1] ++
        t.map (fun b => trimL b.1)).Nodup
      rw [List.append_assoc, List.singleton_append]
      exact hnd
    rw [ih _ hnd2, List.map_cons]
    simp

/-- Reparsing the rebuilt document gives the reparse of each accumulated
day, in order. -/
theorem parseDays_rebuilt (days : List DayAcc) (hG : GoodDays days) :
    parseDays (rebuiltLines days) = days.map reparse1 := by
  unfold parseDays parseBlocks
  rw [splitBlocks_rebuilt days hG]
  have hnd : (([] : List DayAcc).map DayAcc.date ++
      (days.map (fun d => (d.date, dayTail d))).map
        (fun b => trimL b.1)).Nodup := by
    rw [List.map_nil, List.nil_append, List.map_map]
    have : (days.map (fun d => trimL (d.date, dayTail d).1)) =
        days.map DayAcc.date := by
      apply List.map_congr_left
      intro d hd
      exact (hG.1 d hd).1.2.1
    rw [show ((fun (b : Line × List Line) => trimL b.1) ∘
        (fun d => (d.date, dayTail d))) =
      (fun d => trimL (d.date, dayTail d).1) from rfl, this]
    exact hG.2
  rw [parseBlocks_fresh _ [] hnd, List.nil_append, List.map_map]
  apply List.map_congr_left
  intro d hd
  have hdG : GoodDay d := hG.1 d hd
  show (⟨trimL d.date, (blockSep (dayTail d)).1,
    parseSecs (blockSep (dayTail d)).2⟩ : DayAcc) = reparse1 d
  rw [blockSep_dayTail d hdG]
  rw [hdG.1.2.1]
  rw [parseSecs_dayTail d hdG (fun p hp => (hdG.2.2.1 p hp).2)]
  rfl

theorem trimBlanksEnds_append_blank (b : List Line) :
    trimBlanksEnds (trimBlanksEnds b ++ [[]]) = trimBlanksEnds b := by
  simp only [trimBlanksEnds_eq_edgeTrim]
  exact edgeTrim_append_one isBlankL b [] (by decide)

theorem mem_headersOf_pref (d : DayAcc) (h : Line)
    (hp : h ∈ preferredHeaders) :
    h ∈ headersOf d ↔ (lookupSec d.secs h).isSome = true := by
  unfold headersOf
  constructor
  · intro hm
    rcases List.mem_append.mp hm with hm | hm
    · have hx := List.of_mem_filter hm
      exact hx
    · have hx := List.of_mem_filter hm
      simp only [Bool.not_eq_true', decide_eq_false_iff_not] at hx
      exact absurd hp hx
  · intro hs
    exact List.mem_append.mpr (Or.inl (List.mem_filter.mpr ⟨hp, hs⟩))

theorem headersOf_reparse1 (d : DayAcc) :
    headersOf (reparse1 d) = headersOf d := by
  show preferredHeaders.filter
      (fun h => (lookupSec (reparse1 d).secs h).isSome) ++
    (secKeys (reparse1 d).secs).filter
      (fun h => !(decide (h ∈ preferredHeaders))) = headersOf d
  have hsk : secKeys (reparse1 d).secs = headersOf d := by
    show secKeys ((headersOf d).map (fun h =>
      (h, trimBlanksEnds ((lookupSec d.secs h).getD []) ++ [[]]))) =
      headersOf d
    unfold secKeys
    rw [List.map_map]
    show (headersOf d).map (fun h => h) = headersOf d
    exact List.map_id _
  have h1 : preferredHeaders.filter
      (fun h => (lookupSec (reparse1 d).secs h).isSome) =
      preferredHeaders.filter (fun h => (lookupSec d.secs h).isSome) := by
    apply List.filter_congr
    intro h hp
    show (lookupSec (reparse1 d).secs h).isSome =
      (lookupSec d.secs h).isSome
    rw [show (reparse1 d).secs = (headersOf d).map (fun h =>
      (h, trimBlanksEnds ((lookupSec d.secs h).getD []) ++ [[]])) from rfl]
    rw [lookupSec_map]
    by_cases hm : h ∈ headersOf d
    · rw [if_pos hm]
      have hx := (mem_headersOf_pref d h hp).mp hm
      rw [hx]
      rfl
    · rw [if_neg hm]
      cases hlk : lookupSec d.secs h with
      | none => rfl
      | some v =>
        exact absurd ((mem_headersOf_pref d h hp).mpr (by rw [hlk]; rfl)) hm
  have h2 : (headersOf d).filter (fun h => !(decide (h ∈ preferredHeaders))) =
      (secKeys d.secs).filter (fun h => !(decide (h ∈ preferredHeaders))) := by
    show (preferredHeaders.filter (fun h => (lookupSec d.secs h).isSome) ++
      (secKeys d.secs).filter
        (fun h => !(decide (h ∈ preferredHeaders)))).filter
      (fun h => !(decide (h ∈ preferredHeaders))) = _
    rw [List.filter_append]
    have hA : (preferredHeaders.filter
        (fun h => (lookupSec d.secs h).isSome)).filter
        (fun h => !(decide (h ∈ preferredHeaders))) = [] := by
      rw [List.filter_eq_nil_iff]
      intro a ha
      have hp := List.mem_of_mem_filter ha
      simp [hp]
    have hB : ((secKeys d.secs).filter
        (fun h => !(decide (h ∈ preferredHeaders)))).filter
        (fun h => !(decide (h ∈ preferredHeaders))) =
        (secKeys d.secs).filter
          (fun h => !(decide (h ∈ preferredHeaders))) :=
      List.filter_eq_self.mpr (fun a ha => by
        have hx := List.of_mem_filter ha
        exact hx)
    rw [hA, hB, List.nil_append]
  rw [hsk, h1, h2]
  rfl

theorem secChunk_reparse1 (d : DayAcc) (h : Line) (hm : h ∈ headersOf d) :
    secChunk (reparse1 d) h = secChunk d h := by
  unfold secChunk
  rw [show (reparse1 d).secs = (headersOf d).map (fun h =>
    (h, trimBlanksEnds ((lookupSec d.secs h).getD []) ++ [[]])) from rfl]
  rw [lookupSec_map, if_pos hm]
  rw [show (some (trimBlanksEnds ((lookupSec d.secs h).getD []) ++
    [[]])).getD [] =
    trimBlanksEnds ((lookupSec d.secs h).getD []) ++ [[]] from rfl]
  rw [trimBlanksEnds_append_blank]

theorem dayLines_reparse1 (d : DayAcc) :
    dayLines (reparse1 d) = dayLines d := by
  unfold dayLines
  rw [show (reparse1 d).date = d.date from rfl,
    show (reparse1 d).sep = d.sep from rfl,
    headersOf_reparse1]
  have hmap : (headersOf d).map (secChunk (reparse1 d)) =
      (headersOf d).map (secChunk d) :=
    List.map_congr_left (fun h hm => secChunk_reparse1 d h hm)
  rw [hmap]

theorem rebuiltLines_reparse (days : List DayAcc) :
    rebuiltLines (days.map reparse1) = rebuiltLines days := by
  unfold rebuiltLines
  rw [List.map_map]
  congr 1
  exact List.map_congr_left (fun d _ => dayLines_reparse1 d)

theorem mem_concatAll (xs : List (List Line)) (x : Line)
    (hx : x ∈ concatAll xs) : ∃ c ∈ xs, x ∈ c := by
  induction xs with
  | nil => simp [concatAll] at hx
  | cons c rest ih =>
    rw [show concatAll (c :: rest) = c ++ concatAll rest from rfl] at hx
    rcases List.mem_append.mp hx with hx | hx
    · exact ⟨c, List.mem_cons_self _ _, hx⟩
    · obtain ⟨c', hc', hxc⟩ := ih hx
      exact ⟨c', List.mem_cons_of_mem _ hc', hxc⟩

theorem NoNLs_rebuiltLines (days : List DayAcc) (hG : GoodDays days) :
    NoNLs (rebuiltLines days) := by
  intro l hl
  obtain ⟨c, hc, hlc⟩ := mem_concatAll _ l hl
  rw [List.mem_map] at hc
  obtain ⟨d, hd, rfl⟩ := hc
  have hdG := hG.1 d hd
  rw [show dayLines d = d.date :: dayTail d from rfl] at hlc
  rcases List.mem_cons.mp hlc with rfl | hlc
  · exact hdG.1.2.2
  · exact (mem_dayTail d hdG l hlc).1

theorem joinNL_cons2_ne (a b : Line) (t : List Line) :
    joinNL (a :: b :: t) ≠ [] := by
  rw [joinNL]
  simp

/-! ## Adjacent-blank freedom of the rebuilt document -/

theorem noAdjEmptyB_tail (x : Line) (R : List Line)
    (h : noAdjEmptyB (x :: R) = true) : noAdjEmptyB R = true := by
  cases R with
  | nil => rfl
  | cons y ys =>
    rw [noAdjEmptyB, Bool.and_eq_true] at h
    exact h.2

theorem noAdjEmptyB_cons_of_ne (x : Line) (R : List Line) (hx : x ≠ [])
    (hR : noAdjEmptyB R = true) : noAdjEmptyB (x :: R) = true := by
  cases R with
  | nil => rfl
  | cons y ys =>
    rw [noAdjEmptyB, Bool.and_eq_true]
    refine ⟨?_, hR⟩
    have hxb : (x == ([] : Line)) = false := by
      cases hxe : x == ([] : Line)
      · rfl
      · exact absurd (by simpa using hxe) hx
    rw [hxb]
    rfl

theorem noAdjEmptyB_append_right (A B : List Line)
    (h : noAdjEmptyB (A ++ B) = true) : noAdjEmptyB B = true := by
  induction A with
  | nil => exact h
  | cons a A' ih =>
    rw [List.cons_append] at h
    exact ih (noAdjEmptyB_tail _ _ h)

theorem noAdjEmptyB_append_left (A B : List Line)
    (h : noAdjEmptyB (A ++ B) = true) : noAdjEmptyB A = true := by
  induction A with
  | nil => rfl
  | cons a A' ih =>
    cases hA : A' with
    | nil => rfl
    | cons a2 A'' =>
      subst hA
      rw [List.cons_append, List.cons_append] at h
      rw [noAdjEmptyB, Bool.and_eq_true] at h
      rw [noAdjEmptyB, Bool.and_eq_true]
      refine ⟨h.1, ?_⟩
      apply ih
      rw [List.cons_append]
      exact h.2

theorem noAdjEmptyB_append (A B : List Line)
    (hA : noAdjEmptyB A = true) (hB : noAdjEmptyB B = true)
    (hbd : ∀ a b, A.getLast? = some a → B.head? = some b →
      a = [] → b ≠ []) : noAdjEmptyB (A ++ B) = true := by
  induction A with
  | nil => exact hB
  | cons a A' ih =>
    cases hA' : A' with
    | nil =>
      rw [List.singleton_append]
      cases hBc : B with
      | nil => rfl
      | cons b B' =>
        rw [noAdjEmptyB, Bool.and_eq_true]
        refine ⟨?_, hBc ▸ hB⟩
        by_cases ha : a = []
        · have hb : b ≠ [] := hbd a b (by rw [hA']; rfl)
            (by rw [hBc]; rfl) ha
          have hbb : (b == ([] : Line)) = false := by
            cases hbe : b == ([] : Line)
            · rfl
            · exact absurd (by simpa using hbe) hb
          rw [hbb, Bool.and_false]
          rfl
        · have hab : (a == ([] : Line)) = false := by
            cases hae : a == ([] : Line)
            · rfl
            · exact absurd (by simpa using hae) ha
          rw [hab, Bool.false_and]
          rfl
    | cons a2 A'' =>
      subst hA'
      rw [List.cons_append, List.cons_append]
      rw [noAdjEmptyB, Bool.and_eq_true] at hA
      have hrec := ih hA.2 (by
        intro x y hx hy hxe
        exact hbd x y (by rw [List.getLast?_cons_cons]; exact hx) hy hxe)
      rw [noAdjEmptyB, Bool.and_eq_true]
      exact ⟨hA.1, by rw [List.cons_append] at hrec; exact hrec⟩

/-- The both-ends trim is an inner segment of its input. -/
theorem edgeTrim_decomp {α : Type} (p : α → Bool) (l : List α) :
    ∃ s t, l = s ++ edgeTrim p l ++ t := by
  have hs0 : l.dropWhile p <:+ l := List.dropWhile_suffix p
  obtain ⟨s, hs⟩ := hs0
  have hu0 : (l.dropWhile p).reverse.dropWhile p <:+
      (l.dropWhile p).reverse := List.dropWhile_suffix p
  obtain ⟨u, hu⟩ := hu0
  refine ⟨s, u.reverse, ?_⟩
  unfold edgeTrim
  have h1 : l.dropWhile p =
      ((l.dropWhile p).reverse.dropWhile p).reverse ++ u.reverse := by
    have h2 := congrArg List.reverse hu
    rw [List.reverse_append, List.reverse_reverse] at h2
    exact h2.symm
  rw [List.append_assoc, ← h1, hs]

theorem noAdjEmptyB_edgeTrim (l : List Line)
    (h : noAdjEmptyB l = true) :
    noAdjEmptyB (edgeTrim isBlankL l) = true := by
  obtain ⟨s, t, hst⟩ := edgeTrim_decomp isBlankL l
  rw [hst, List.append_assoc] at h
  exact noAdjEmptyB_append_left _ _ (noAdjEmptyB_append_right _ _ h)

theorem secChunk_getLast_ne (d : DayAcc) (h : Line) (hK : GoodKey h) :
    ∀ x, (secChunk d h).getLast? = some x → x ≠ [] := by
  intro x hx
  unfold secChunk at hx
  cases htB : trimBlanksEnds ((lookupSec d.secs h).getD []) with
  | nil =>
    rw [htB] at hx
    simp only [List.getLast?_singleton, Option.some.injEq] at hx
    subst hx
    obtain ⟨m, rfl, _, _⟩ := hK
    simp
  | cons b bs =>
    rw [htB, List.getLast?_cons_cons, ← htB] at hx
    rw [trimBlanksEnds_eq_edgeTrim] at hx
    have hnb := edgeTrim_getLast_not isBlankL _ x hx
    intro hxe
    subst hxe
    exact absurd hnb (by decide)

theorem noAdjEmptyB_secChunk (d : DayAcc) (h : Line) (hK : GoodKey h)
    (hbody : noAdjEmptyB ((lookupSec d.secs h).getD []) = true) :
    noAdjEmptyB (secChunk d h) = true := by
  unfold secChunk
  apply noAdjEmptyB_cons_of_ne
  · obtain ⟨m, rfl, _, _⟩ := hK
    simp
  · rw [trimBlanksEnds_eq_edgeTrim]
    exact noAdjEmptyB_edgeTrim _ hbody

theorem noAdjEmptyB_joinSecChunks (cs : List (List Line))
    (hc : ∀ c ∈ cs, noAdjEmptyB c = true ∧
      (∃ hd tl, c = hd :: tl ∧ hd ≠ []) ∧
      (∀ x, c.getLast? = some x → x ≠ [])) :
    noAdjEmptyB (joinSecChunks cs) = true ∧
    (∀ x, (joinSecChunks cs).getLast? = some x → x ≠ []) := by
  induction cs with
  | nil =>
    refine ⟨rfl, ?_⟩
    intro x hx
    simp [joinSecChunks] at hx
  | cons c rest ih =>
    cases hr : rest with
    | nil =>
      subst hr
      rw [joinSecChunks]
      exact ⟨(hc c (List.mem_cons_self _ _)).1,
        (hc c (List.mem_cons_self _ _)).2.2⟩
    | cons c2 rest2 =>
      subst hr
      rw [joinSecChunks]
      obtain ⟨hc1, ⟨hd, tl, hcs, hhd⟩, hlast⟩ := hc c (List.mem_cons_self _ _)
      have hrest : ∀ x ∈ c2 :: rest2, noAdjEmptyB x = true ∧
          (∃ hd tl, x = hd :: tl ∧ hd ≠ []) ∧
          (∀ y, x.getLast? = some y → y ≠ []) :=
        fun x hx => hc x (List.mem_cons_of_mem _ hx)
      obtain ⟨hJ, hJlast⟩ := ih hrest
      obtain ⟨hc2a, ⟨hd2, tl2, hcs2, hhd2⟩, _⟩ :=
        hrest c2 (List.mem_cons_self _ _)
      have hJshape : ∃ A, joinSecChunks (c2 :: rest2) = hd2 :: A := by
        cases rest2 with
        | nil => exact ⟨tl2, by rw [joinSecChunks, hcs2]⟩
        | cons c3 rest3 =>
          refine ⟨tl2 ++ ([[]] ++ joinSecChunks (c3 :: rest3)), ?_⟩
          rw [joinSecChunks, hcs2]
          simp [List.append_assoc]
      obtain ⟨A, hA⟩ := hJshape
      have hbne : (hd2 == ([] : Line)) = false := by
        cases he : hd2 == ([] : Line)
        · rfl
        · exact absurd (by simpa using he) hhd2
      constructor
      · rw [List.append_assoc]
        apply noAdjEmptyB_append _ _ hc1
        · rw [List.singleton_append, hA]
          rw [noAdjEmptyB, Bool.and_eq_true]
          refine ⟨?_, by rw [← hA]; exact hJ⟩
          rw [hbne, Bool.and_false]
          rfl
        · intro a b hla hbh hae
          exact absurd hae (hlast a hla)
      · intro x hx
        rw [List.append_assoc] at hx
        rw [List.getLast?_append_of_ne_nil _
          (by rw [List.singleton_append]; simp : ([[]] : List Line) ++
            joinSecChunks (c2 :: rest2) ≠ [])] at hx
        rw [List.singleton_append, hA, List.getLast?_cons_cons, ← hA] at hx
        exact hJlast x hx

theorem noAdjEmptyB_dayLines (d : DayAcc) (hG : GoodDay d)
    (hbodies : ∀ p ∈ d.secs, noAdjEmptyB p.2 = true) :
    noAdjEmptyB (dayLines d) = true := by
  have hchunks : ∀ c ∈ (headersOf d).map (secChunk d),
      noAdjEmptyB c = true ∧ (∃ hd tl, c = hd :: tl ∧ hd ≠ []) ∧
      (∀ x, c.getLast? = some x → x ≠ []) := by
    intro c hcm
    rw [List.mem_map] at hcm
    obtain ⟨h, hh, rfl⟩ := hcm
    have hK := headersOf_goodKey d hG.2.2 h hh
    have hbody : noAdjEmptyB ((lookupSec d.secs h).getD []) = true := by
      cases hlk : lookupSec d.secs h with
      | none => rfl
      | some v => exact hbodies (h, v) (lookupSec_mem _ _ _ hlk)
    refine ⟨noAdjEmptyB_secChunk d h hK hbody, ?_,
      secChunk_getLast_ne d h hK⟩
    refine ⟨h, _, rfl, ?_⟩
    obtain ⟨m, rfl, _, _⟩ := hK
    simp
  obtain ⟨hJ, hJlast⟩ := noAdjEmptyB_joinSecChunks _ hchunks
  have hJblank : noAdjEmptyB
      (joinSecChunks ((headersOf d).map (secChunk d)) ++ [[]]) = true := by
    apply noAdjEmptyB_append _ _ hJ
      (show noAdjEmptyB [[]] = true from rfl)
    intro a b hla hbh hae
    exact absurd hae (hJlast a hla)
  unfold dayLines
  apply noAdjEmptyB_cons_of_ne _ _ (date_ne_nil _ hG.1.1)
  apply noAdjEmptyB_cons_of_ne _ _ ?_ hJblank
  obtain ⟨rest, hr⟩ := startsWith_eqeq_shape d.sep hG.2.1.2.1
  rw [hr]
  simp

theorem noAdjEmptyB_rebuiltLines (days : List DayAcc) (hG : GoodDays days)
    (hbodies : ∀ day ∈ days, ∀ p ∈ day.secs, noAdjEmptyB p.2 = true) :
    noAdjEmptyB (rebuiltLines days) = true := by
  induction days with
  | nil => rfl
  | cons d t ih =>
    have hdG := hG.1 d (List.mem_cons_self _ _)
    have htG : GoodDays t :=
      ⟨fun x hx => hG.1 x (List.mem_cons_of_mem _ hx),
        (List.nodup_cons.mp hG.2).2⟩
    rw [show rebuiltLines (d :: t) = dayLines d ++ rebuiltLines t from rfl]
    apply noAdjEmptyB_append
    · exact noAdjEmptyB_dayLines d hdG (hbodies d (List.mem_cons_self _ _))
    · exact ih htG (fun day hday => hbodies day (List.mem_cons_of_mem _ hday))
    · intro a b hla hbh hae
      cases t with
      | nil =>
        rw [show rebuiltLines [] = [] from rfl] at hbh
        cases hbh
      | cons d2 t2 =>
        rw [show rebuiltLines (d2 :: t2) =
          d2.date :: (dayTail d2 ++ rebuiltLines t2) from rfl] at hbh
        simp only [List.head?_cons, Option.some.injEq] at hbh
        subst hbh
        exact date_ne_nil _ ((htG.1 d2 (List.mem_cons_self _ _)).1.1)

/-! ## No occurrence of a triple newline in a well-spaced join -/

theorem startsWith_head_mem (c : Char) (p s : List Char)
    (h : startsWithL (c :: p) s = true) : c ∈ s := by
  cases s with
  | nil => exact Bool.noConfusion h
  | cons x xs =>
    rw [startsWithL, Bool.and_eq_true, decide_eq_true_eq] at h
    rw [h.1]
    exact List.mem_cons_self _ _

theorem containsSub_head_notmem (c : Char) (p s : List Char)
    (h : c ∉ s) : containsSub (c :: p) s = false := by
  induction s with
  | nil => rfl
  | cons x xs ih =>
    rw [containsSub]
    have hc : c ≠ x := fun hcx => h (by rw [hcx]; exact List.mem_cons_self _ _)
    have h1 : startsWithL (c :: p) (x :: xs) = false := by
      rw [startsWithL]
      simp [hc]
    rw [h1, Bool.false_or]
    exact ih (fun hm => h (List.mem_cons_of_mem _ hm))

theorem containsSub_append_notmem (c : Char) (p a b : List Char)
    (h : c ∉ a) :
    containsSub (c :: p) (a ++ b) = containsSub (c :: p) b := by
  induction a with
  | nil => rfl
  | cons x xs ih =>
    rw [List.cons_append, containsSub]
    have hc : c ≠ x := fun hcx => h (by rw [hcx]; exact List.mem_cons_self _ _)
    have h1 : startsWithL (c :: p) (x :: (xs ++ b)) = false := by
      rw [startsWithL]
      simp [hc]
    rw [h1, Bool.false_or]
    exact ih (fun hm => h (List.mem_cons_of_mem _ hm))

theorem str_nnn_eq : str "\n\n\n" = '\n' :: '\n' :: ['\n'] := rfl

theorem startsWith_nn_joinNL (l2 : Line) (t : List Line)
    (hN : NoNLs (l2 :: t)) (hA : noAdjEmptyB (l2 :: t) = true) :
    startsWithL ('\n' :: ['\n']) (joinNL (l2 :: t)) = false := by
  have h2 : '\n' ∉ l2 := hN l2 (List.mem_cons_self _ _)
  cases l2 with
  | cons a as =>
    have ha : ('\n' : Char) ≠ a := by
      intro hc
      apply h2
      rw [hc]
      exact List.mem_cons_self _ _
    cases t with
    | nil =>
      rw [show joinNL [(a :: as)] = a :: as from rfl, startsWithL]
      simp [ha]
    | cons l3 t' =>
      rw [joinNL, List.cons_append, startsWithL]
      simp [ha]
  | nil =>
    cases t with
    | nil => rfl
    | cons l3 t' =>
      rw [joinNL, List.nil_append, startsWithL]
      have hdd : (decide (('\n' : Char) = '\n')) = true := by decide
      rw [hdd, Bool.true_and]
      have h3 : l3 ≠ [] := by
        intro hc
        subst hc
        rw [noAdjEmptyB] at hA
        simp at hA
      cases l3 with
      | nil => exact absurd rfl h3
      | cons b bs =>
        have hb : ('\n' : Char) ≠ b := by
          intro hc
          apply hN (b :: bs)
            (List.mem_cons_of_mem _ (List.mem_cons_self _ _))
          rw [hc]
          exact List.mem_cons_self _ _
        cases t' with
        | nil =>
          rw [show joinNL [(b :: bs)] = b :: bs from rfl, startsWithL]
          simp [hb]
        | cons l4 t'' =>
          rw [joinNL, List.cons_append, startsWithL]
          simp [hb]

/-- A join of newline-free lines with no two adjacent empty lines contains
no triple newline. -/
theorem noTriple_joinNL (L : List Line) (hN : NoNLs L)
    (hA : noAdjEmptyB L = true) :
    containsSub (str "\n\n\n") (joinNL L) = false := by
  induction L with
  | nil => rfl
  | cons l rest ih =>
    cases rest with
    | nil =>
      rw [show joinNL [l] = l from rfl, str_nnn_eq]
      exact containsSub_head_notmem _ _ _ (hN l (List.mem_cons_self _ _))
    | cons l2 t =>
      rw [joinNL, str_nnn_eq]
      rw [containsSub_append_notmem _ _ _ _ (hN l (List.mem_cons_self _ _))]
      rw [containsSub]
      have hNt : NoNLs (l2 :: t) :=
        fun x hx => hN x (List.mem_cons_of_mem _ hx)
      have hAt : noAdjEmptyB (l2 :: t) = true := noAdjEmptyB_tail _ _ hA
      have hrec : containsSub ('\n' :: '\n' :: ['\n']) (joinNL (l2 :: t)) =
          false := by
        rw [← str_nnn_eq]
        exact ih hNt hAt
      rw [hrec, Bool.or_false, startsWithL]
      have hdd : (decide (('\n' : Char) = '\n')) = true := by decide
      rw [hdd, Bool.true_and]
      exact startsWith_nn_joinNL l2 t hNt hAt

/-- **C1**: for every document `d`, `dedupeDateBlocks (dedupeDateBlocks d)`
equals `dedupeDateBlocks d` as strings: the deduplicator is idempotent. -/
theorem C1_dedupe_idempotent (content : List Char) :
    dedupeDateBlocks (dedupeDateBlocks content) = dedupeDateBlocks content := by
  by_cases hc : content = []
  · subst hc
    rfl
  · cases hp : parseDays (splitNL content) with
    | nil =>
      have h1 : dedupeDateBlocks content = content := by
        unfold dedupeDateBlocks
        rw [if_neg hc, hp]
      rw [h1]
      unfold dedupeDateBlocks
      rw [if_neg hc, hp]
    | cons d ds =>
      have hG : GoodDays (d :: ds) := by
        rw [← hp]
        exact parseDays_good _ (NoNLs_splitNL content)
      have h1 : dedupeDateBlocks content = joinNL (rebuiltLines (d :: ds)) := by
        unfold dedupeDateBlocks
        rw [if_neg hc, hp]
      rw [h1]
      have hRc : rebuiltLines (d :: ds) =
          d.date :: (dayTail d ++ rebuiltLines ds) := rfl
      have hne : joinNL (rebuiltLines (d :: ds)) ≠ [] := by
        rw [hRc, show dayTail d ++ rebuiltLines ds =
          d.sep :: ((joinSecChunks ((headersOf d).map (secChunk d)) ++
            [[]]) ++ rebuiltLines ds) from rfl]
        exact joinNL_cons2_ne _ _ _
      have hsplit : splitNL (joinNL (rebuiltLines (d :: ds))) =
          rebuiltLines (d :: ds) :=
        splitNL_joinNL_of_noNLs _ (by rw [hRc]; simp)
          (NoNLs_rebuiltLines _ hG)
      unfold dedupeDateBlocks
      rw [if_neg hne, hsplit, parseDays_rebuilt _ hG, List.map_cons]
      show joinNL (rebuiltLines (reparse1 d :: ds.map reparse1)) =
        joinNL (rebuiltLines (d :: ds))
      rw [← List.map_cons reparse1 d ds, rebuiltLines_reparse]

/-- **C10**: `dedupeDateBlocks` on an input with at least one full-date
header: (a) lines before the first date header do not reach the parse, (b)
in-block lines before the block's first section header are dropped by the
section loop, (c) the output is exactly the per-day rebuild, in which every
day is rendered as its date followed by exactly one separator line (the
line after the separator never being one), and (d) a block whose first line
is no separator gets the synthesized 40-character `=` separator. -/
theorem C10_dedupe_normalizes (content : List Char) (pre L : List Line)
    (d : DayAcc) (ds : List DayAcc)
    (hpre : ∀ l ∈ pre, isFullDateL l = false)
    (hp : parseDays (splitNL content) = d :: ds) :
    parseDays (pre ++ L) = parseDays L ∧
    (∀ (j : Line) (rest : List Line),
      headerMid (trimL j) = none →
      parseSecsAux none [] (j :: rest) = parseSecsAux none [] rest) ∧
    dedupeDateBlocks content = joinNL (rebuiltLines (d :: ds)) ∧
    (∀ day ∈ d :: ds, ∃ rest,
      dayLines day = day.date :: day.sep :: rest ∧
      isFullDateL day.date = true ∧
      startsWithL (str "==") day.sep = true ∧
      (∀ x, rest.head? = some x → sepPrefixB x = false)) ∧
    (∀ bl : List Line,
      (∀ x, bl.head? = some x → sepPrefixB x = false) →
      (blockSep bl).1 = default40) ∧
    default40.length = 40 ∧ (∀ c ∈ default40, c = '=') := by
  have hG : GoodDays (d :: ds) := by
    rw [← hp]
    exact parseDays_good _ (NoNLs_splitNL content)
  have hc : content ≠ [] := by
    intro h
    subst h
    rw [show parseDays (splitNL []) = [] from rfl] at hp
    cases hp
  refine ⟨?_, ?_, ?_, ?_, ?_, by decide, by decide⟩
  · unfold parseDays
    rw [splitBlocks_append_nondate pre L hpre]
  · intro j rest hj
    rw [parseSecsAux.eq_def]
    dsimp only
    rw [hj]
  · unfold dedupeDateBlocks
    rw [if_neg hc, hp]
  · intro day hday
    have hdG := hG.1 day hday
    refine ⟨joinSecChunks ((headersOf day).map (secChunk day)) ++ [[]],
      rfl, hdG.1.1, hdG.2.1.2.1, ?_⟩
    intro x hx
    cases hh : headersOf day with
    | nil =>
      rw [hh, List.map_nil] at hx
      rw [show joinSecChunks [] ++ [[]] = [[]] from rfl] at hx
      simp only [List.head?_cons, Option.some.injEq] at hx
      subst hx
      rfl
    | cons h0 hs =>
      rw [hh, List.map_cons] at hx
      have hshape : ∃ A, joinSecChunks
          (secChunk day h0 :: hs.map (secChunk day)) ++ [[]] =
          secChunk day h0 ++ A := by
        cases hs.map (secChunk day) with
        | nil => exact ⟨[[]], rfl⟩
        | cons c2 cs2 =>
          refine ⟨[[]] ++ (joinSecChunks (c2 :: cs2) ++ [[]]), ?_⟩
          rw [joinSecChunks]
          simp [List.append_assoc]
      obtain ⟨A, hA⟩ := hshape
      rw [hA] at hx
      rw [show secChunk day h0 ++ A = h0 ::
        (trimBlanksEnds ((lookupSec day.secs h0).getD []) ++ A)
        from rfl] at hx
      simp only [List.head?_cons, Option.some.injEq] at hx
      subst hx
      have hK := headersOf_goodKey day hdG.2.2 h0
        (hh ▸ List.mem_cons_self _ _)
      unfold sepPrefixB
      rw [GoodKey_trim _ hK]
      exact GoodKey_not_sep _ hK
  · intro bl hbl
    cases bl with
    | nil => rfl
    | cons x rest =>
      have hx : sepPrefixB x = false := hbl x rfl
      rw [blockSep, if_neg (by rw [hx]; exact Bool.false_ne_true)]

/-- Witness for C10 at a concrete document with leading junk, a block with
no separator, and in-block junk before the first section header. -/
theorem C10_witness :
    (∀ l ∈ [str "junk"], isFullDateL l = false) ∧
    parseDays (splitNL (str "junk\n2025-01-03\nstray\n[DOING]\n- a")) =
      [⟨str "2025-01-03", default40, [(str "[DOING]", [str "- a"])]⟩] ∧
    (parseDays ([str "junk"] ++ [str "2025-01-03"]) =
        parseDays [str "2025-01-03"] ∧
      (∀ (j : Line) (rest : List Line),
        headerMid (trimL j) = none →
        parseSecsAux none [] (j :: rest) = parseSecsAux none [] rest) ∧
      dedupeDateBlocks (str "junk\n2025-01-03\nstray\n[DOING]\n- a") =
        joinNL (rebuiltLines
          [⟨str "2025-01-03", default40, [(str "[DOING]", [str "- a"])]⟩]) ∧
      (∀ day ∈ [(⟨str "2025-01-03", default40,
          [(str "[DOING]", [str "- a"])]⟩ : DayAcc)], ∃ rest,
        dayLines day = day.date :: day.sep :: rest ∧
        isFullDateL day.date = true ∧
        startsWithL (str "==") day.sep = true ∧
        (∀ x, rest.head? = some x → sepPrefixB x = false)) ∧
      (∀ bl : List Line,
        (∀ x, bl.head? = some x → sepPrefixB x = false) →
        (blockSep bl).1 = default40) ∧
      default40.length = 40 ∧ (∀ c ∈ default40, c = '=')) :=
  ⟨by decide, by rfl,
    C10_dedupe_normalizes (str "junk\n2025-01-03\nstray\n[DOING]\n- a")
      [str "junk"] [str "2025-01-03"]
      ⟨str "2025-01-03", default40, [(str "[DOING]", [str "- a"])]⟩ []
      (by decide) (by rfl)⟩

/-- **C3 (amended)**: `dedupeDateBlocks` never emits two consecutive blank
lines: whenever its parse of the input yields at least one day block and
every parsed section body is free of adjacent empty lines, the output
contains no `"\n\n\n"`.  (`updateSectionForDate` and `addEventTaskToContent`
do not satisfy the original claim, see the counterexample.) -/
theorem C3_amended_no_triple_newline (content : List Char)
    (d : DayAcc) (ds : List DayAcc)
    (hp : parseDays (splitNL content) = d :: ds)
    (hbodies : ∀ day ∈ d :: ds, ∀ p ∈ day.secs, noAdjEmptyB p.2 = true) :
    containsSub (str "\n\n\n") (dedupeDateBlocks content) = false := by
  have hG : GoodDays (d :: ds) := by
    rw [← hp]
    exact parseDays_good _ (NoNLs_splitNL content)
  have hc : content ≠ [] := by
    intro h
    subst h
    rw [show parseDays (splitNL []) = [] from rfl] at hp
    cases hp
  unfold dedupeDateBlocks
  rw [if_neg hc, hp]
  exact noTriple_joinNL _ (NoNLs_rebuiltLines _ hG)
    (noAdjEmptyB_rebuiltLines _ hG hbodies)

/-- Witness for the amended C3 at a concrete document whose DOING body
keeps one internal blank line. -/
theorem C3_witness :
    parseDays (splitNL (str "2025-01-01\n[DOING]\n- a\n\n- b")) =
      [⟨str "2025-01-01", default40,
        [(str "[DOING]", [str "- a", [], str "- b"])]⟩] ∧
    (∀ day ∈ [(⟨str "2025-01-01", default40,
        [(str "[DOING]", [str "- a", [], str "- b"])]⟩ : DayAcc)],
      ∀ p ∈ day.secs, noAdjEmptyB p.2 = true) ∧
    containsSub (str "\n\n\n")
      (dedupeDateBlocks (str "2025-01-01\n[DOING]\n- a\n\n- b")) = false :=
  ⟨by rfl, by decide,
    C3_amended_no_triple_newline (str "2025-01-01\n[DOING]\n- a\n\n- b")
      ⟨str "2025-01-01", default40,
        [(str "[DOING]", [str "- a", [], str "- b"])]⟩ []
      (by rfl) (by decide)⟩

/-- **C2**: each mutator (`moveDoingItemToDone`, `addEventTaskToContent`,
`deleteEventSubtask`) whose target date block, section, or matching line is
absent returns the input document byte-identically unchanged, never a
partially-applied edit.  Every miss case of each mutator is listed. -/
theorem C2_mutators_unchanged_on_missing_target
    (content dateStr raw task : List Char) :
    (findDateBlock (splitNL content) dateStr = none →
      moveDoingItemToDone content dateStr raw = content ∧
      deleteEventSubtask content dateStr raw = content) ∧
    (∀ di be, findDateBlock (splitNL content) dateStr = some (di, be) →
      findSectionWithinBlock (splitNL content) di be (str "[DOING]") = none →
      moveDoingItemToDone content dateStr raw = content) ∧
    (∀ di be dh de, findDateBlock (splitNL content) dateStr = some (di, be) →
      findSectionWithinBlock (splitNL content) di be (str "[DOING]") =
        some (dh, de) →
      findIdxFrom (doingMatchPred raw) (splitNL content) (dh + 1) de = none →
      moveDoingItemToDone content dateStr raw = content) ∧
    (findBlocksAux dateStr (splitNL content) 0 none = [] →
      addEventTaskToContent content dateStr raw task = content) ∧
    (searchBlocks (splitNL content) raw
        (findBlocksAux dateStr (splitNL content) 0 none) = none →
      addEventTaskToContent content dateStr raw task = content) ∧
    (∀ di be, findDateBlock (splitNL content) dateStr = some (di, be) →
      findSectionWithinBlock (splitNL content) di be (str "[EVENTS]") = none →
      deleteEventSubtask content dateStr raw = content) ∧
    (∀ di be eh ee, findDateBlock (splitNL content) dateStr = some (di, be) →
      findSectionWithinBlock (splitNL content) di be (str "[EVENTS]") =
        some (eh, ee) →
      findIdxFrom (subtaskMatchPred raw) (splitNL content) (eh + 1) ee = none →
      deleteEventSubtask content dateStr raw = content) := by
  refine ⟨?_, ?_, ?_, ?_, ?_, ?_, ?_⟩
  · intro h
    constructor
    · simp only [moveDoingItemToDone, h, ite_self]
    · simp only [deleteEventSubtask, h, ite_self]
  · intro di be h1 h2
    simp only [moveDoingItemToDone, h1, h2, ite_self]
  · intro di be dh de h1 h2 h3
    simp only [moveDoingItemToDone, h1, h2, h3, ite_self]
  · intro h
    simp only [addEventTaskToContent, h]
  · intro h
    simp only [addEventTaskToContent, h]
    cases findBlocksAux dateStr (splitNL content) 0 none <;> rfl
  · intro di be h1 h2
    simp only [deleteEventSubtask, h1, h2, ite_self]
  · intro di be eh ee h1 h2 h3
    simp only [deleteEventSubtask, h1, h2, h3, ite_self]
    by_cases hg : (content = [] || dateStr = [] || raw = []) = true
    · simp [hg]
    · simp only [Bool.not_eq_true] at hg
      simp [hg, joinNL_splitNL]

/-- **C9**: `extractTagsFromLine` equals its specification: strip one
leading `x `/`- ` marker, split into whitespace-delimited tokens, pop the
maximal all-tag suffix (tokens starting with `#`, length greater than 1) as
the tags in original order, and join the remaining tokens as the base text,
leaving hashtags in the middle of the text untouched. -/
theorem C9_extractTags_matches_spec (line : Line) :
    extractTagsFromLine line = specExtractTags line := by
  unfold extractTagsFromLine specExtractTags
  dsimp only
  rw [splitTags_eq]

/-- **C8**: `handleToggleItem` (toggleCompletion) equals its specification:
find the first line byte-exactly equal to `rawLine`; if none, return the
document unchanged; otherwise toggle the `x ` prefix of that line — adding
it after the original leading whitespace, or stripping it case-insensitively
when the trimmed text starts with `x `. -/
theorem C8_toggleCompletion_matches_spec (content rawLine : List Char) :
    handleToggleItem content rawLine = specToggleCompletion content rawLine := by
  unfold handleToggleItem specToggleCompletion
  dsimp only
  cases h : findIdxL (fun l => l == rawLine) (splitNL content) with
  | none => rfl
  | some i =>
    dsimp only
    unfold specToggleLine
    by_cases hx : startsWithL (str "x ")
        ((trimL (getL (splitNL content) i)).map asciiLower) = true
    · rw [if_pos hx, if_pos hx, removeFirstX_of_completed _ hx]
    · rw [if_neg hx, if_neg hx]

/-- **C5**: the concrete move round trip: moving
`- Draft agenda #Team_Standup` from DOING to DONE removes it from DOING,
inserts `x Draft agenda #Team_Standup` as the first DONE item, and rewrites
the EVENTS child `  - Draft agenda` to `  x Draft agenda`; and in general,
whenever the DONE section exists after the removal, the moved item appears
as the line directly below the `[DONE]` header. -/
theorem C5_move_round_trip :
    (moveDoingItemToDone
      (str "2025-12-16\n========================================\n[EVENTS]\n- 09:00 AM - Standup\n  - Draft agenda\n\n[DOING]\n- Draft agenda #Team_Standup\n\n[DONE]\nx Old\n\n[NOTES]")
      (str "2025-12-16") (str "- Draft agenda #Team_Standup") =
      str "2025-12-16\n========================================\n[EVENTS]\n- 09:00 AM - Standup\n  x Draft agenda\n\n[DOING]\n\n[DONE]\nx Draft agenda #Team_Standup\nx Old\n\n[NOTES]") ∧
    ∀ content dateStr raw di be dh de mi ddh dde,
      content ≠ [] → dateStr ≠ [] → raw ≠ [] →
      findDateBlock (splitNL content) dateStr = some (di, be) →
      findSectionWithinBlock (splitNL content) di be (str "[DOING]") =
        some (dh, de) →
      findIdxFrom (doingMatchPred raw) (splitNL content) (dh + 1) de =
        some mi →
      cleanMarkers (getL (splitNL content) mi) ≠ [] →
      findSectionWithinBlock (eraseAtL (splitNL content) mi) di be
        (str "[DONE]") = some (ddh, dde) →
      getL (splitNL (moveDoingItemToDone content dateStr raw)) (ddh + 1) =
        str "x " ++ cleanMarkers (getL (splitNL content) mi) := by
  constructor
  · decide
  · intro content dateStr raw di be dh de mi ddh dde hc hd hr hf1 hf2 hf3
      hcl hdone
    have hguard : ¬ ((content = [] || dateStr = [] || raw = []) = true) := by
      simp [hc, hd, hr]
    unfold moveDoingItemToDone
    rw [if_neg hguard]
    simp only [hf1, hf2, hf3, hdone, if_neg hcl]
    set lines := splitNL content with hlines
    set lines1 := eraseAtL lines mi with hlines1
    have hN : NoNLs lines := NoNLs_splitNL content
    have hN1 : NoNLs lines1 := NoNLs_eraseAtL lines mi hN
    have hddh : ddh < lines1.length :=
      (findSectionWithinBlock_some lines1 di be (str "[DONE]") ddh dde
        hdone).2
    have hxline : '\n' ∉ str "x " ++ cleanMarkers (getL lines mi) := by
      intro hmem
      rcases List.mem_append.mp hmem with h | h
      · simp [str] at h
      · exact noNL_getL lines mi hN (cleanMarkers_subset (getL lines mi) _ h)
    -- the EVENTS child rewrite preserves length and newline-freeness
    cases hEv : findSectionWithinBlock lines1 di be (str "[EVENTS]") with
    | none =>
      exact getL_split_join_insert lines1 (ddh + 1) _ hN1 hxline
        (Nat.succ_le_of_lt hddh)
    | some r =>
      obtain ⟨eh, ee⟩ := r
      dsimp only
      by_cases hmt : baseOrCleaned (cleanMarkers (getL lines mi)) = []
      · rw [if_pos hmt]
        exact getL_split_join_insert lines1 (ddh + 1) _ hN1 hxline
          (Nat.succ_le_of_lt hddh)
      · rw [if_neg hmt]
        cases hCh : findIdxFrom
            (childMatchPred (normalizeForMatch
              (baseOrCleaned (cleanMarkers (getL lines mi)))))
            lines1 (eh + 1) ee with
        | none =>
          exact getL_split_join_insert lines1 (ddh + 1) _ hN1 hxline
            (Nat.succ_le_of_lt hddh)
        | some ci =>
          dsimp only
          have hNset : NoNLs (setAtL lines1 ci
              ((getL lines1 ci).takeWhile isWSChar ++ str "x " ++
                cleanMarkers (getL lines1 ci))) := by
            apply NoNLs_setAtL _ _ _ _ hN1
            intro hmem
            rcases List.mem_append.mp hmem with h | h
            · rcases List.mem_append.mp h with h | h
              · exact noNL_getL lines1 ci hN1
                  (takeWhileWS_subset (getL lines1 ci) _ h)
              · simp [str] at h
            · exact noNL_getL lines1 ci hN1
                (cleanMarkers_subset (getL lines1 ci) _ h)
          have hlen : ddh + 1 ≤ (setAtL lines1 ci
              ((getL lines1 ci).takeWhile isWSChar ++ str "x " ++
                cleanMarkers (getL lines1 ci))).length := by
            rw [setAtL_length]
            exact Nat.succ_le_of_lt hddh
          exact getL_split_join_insert _ (ddh + 1) _ hNset hxline hlen

/-- **C5 witness**: the general first-DONE-item property instantiated on the
round-trip document. -/
theorem C5_witness :
    getL (splitNL (moveDoingItemToDone
      (str "2025-12-16\n========================================\n[EVENTS]\n- 09:00 AM - Standup\n  - Draft agenda\n\n[DOING]\n- Draft agenda #Team_Standup\n\n[DONE]\nx Old\n\n[NOTES]")
      (str "2025-12-16") (str "- Draft agenda #Team_Standup"))) 9 =
      str "x Draft agenda #Team_Standup" := by
  have h := C5_move_round_trip.2
    (str "2025-12-16\n========================================\n[EVENTS]\n- 09:00 AM - Standup\n  - Draft agenda\n\n[DOING]\n- Draft agenda #Team_Standup\n\n[DONE]\nx Old\n\n[NOTES]")
    (str "2025-12-16") (str "- Draft agenda #Team_Standup")
    0 13 6 9 7 8 11 (by decide) (by decide) (by decide) (by decide)
    (by decide) (by decide) (by decide) (by decide)
  exact h.trans (by decide)

/-- **C3 counterexample**: `updateSectionForDate` (replaceSectionItems) can
produce the substring `"\n\n\n"`: inserting a missing `[EVENTS]` section
directly before an existing blank line yields two consecutive blank lines,
refuting the claim that the three rewriters never emit `"\n\n\n"`. -/
theorem C3_counterexample :
    containsSub (str "\n\n\n")
      (updateSectionForDate (str "2025-01-01\n\n[DOING]\n- a")
        (str "2025-01-01") (str "EVENTS") [str "- x"]) = true ∧
    updateSectionForDate (str "2025-01-01\n\n[DOING]\n- a")
        (str "2025-01-01") (str "EVENTS") [str "- x"] =
      str "2025-01-01\n[EVENTS]\n- x\n\n\n[DOING]\n- a" := by
  exact ⟨by decide, by decide⟩

/-- **C4 counterexample**: the document has no `[EVENTS]` section at all, yet
`addEventTaskToContent` matches the DOING line `- foo` and edits the
document, refuting the claim that only top-level EVENTS lines are matched. -/
theorem C4_counterexample :
    ((splitNL (str "2025-01-01\n[DOING]\n- foo")).all
      (fun l => !(trimL l == str "[EVENTS]")) = true) ∧
    addEventTaskToContent (str "2025-01-01\n[DOING]\n- foo")
        (str "2025-01-01") (str "- foo") (str "t") =
      str "2025-01-01\n[DOING]\n- t\n- foo\n  - t" := by
  exact ⟨by decide, by decide⟩

/-- **C6 counterexample**: the previous day's DOING line is stored as
`"  - a"` (indented) but `getCarryOverDoingItems` returns it trimmed as
`"- a"`, refuting the claim that lines are returned verbatim including
indentation. -/
theorem C6_counterexample :
    getL (splitNL (str "2025-01-01\n[DOING]\n  - a")) 2 = str "  - a" ∧
    getCarryOverDoingItems (str "2025-01-01\n[DOING]\n  - a")
      (str "2025-01-02") = [str "- a"] := by
  exact ⟨by decide, by decide⟩

/-- **C7 counterexample**: synthesizing a block for the missing date with
section name `DOING` duplicates the `[DOING]` header, refuting the claim
that no section header is duplicated. -/
theorem C7_counterexample :
    ((splitNL (updateSectionForDate (str "") (str "2025-01-01") (str "DOING")
      [str "- a"])).filter (fun l => trimL l == str "[DOING]")).length = 2 := by
  decide

/-- **C6 amended**: `getCarryOverDoingItems` selects the lexicographically
greatest date token strictly less than the target (empty result when none
exists) and returns exactly the non-blank, non-separator lines of that
date's DOING section whose trimmed text does not start with `x `
(case-insensitive) — each returned TRIMMED (leading and trailing whitespace
removed; bullet prefix and trailing tags preserved), not verbatim.  The
final conjunct is the specification's own carry-over example. -/
theorem C6_amended_carry_over :
    (∀ content t prev,
      (extractDatesFromContent content).find? (fun d => lexLt d t) =
        some prev →
      prev ∈ extractDatesFromContent content ∧ lexLt prev t = true ∧
        ∀ d ∈ extractDatesFromContent content, lexLt d t = true →
          lexLt d prev = true ∨ d = prev) ∧
    (∀ content t,
      (extractDatesFromContent content).find? (fun d => lexLt d t) = none →
      getCarryOverDoingItems content t = []) ∧
    (∀ content t prev, content ≠ [] → t ≠ [] →
      (extractDatesFromContent content).find? (fun d => lexLt d t) =
        some prev →
      getCarryOverDoingItems content t =
        (getSectionLinesForDate content prev (str "[DOING]")).filter
          (fun l => !xPrefixTest l)) ∧
    (∀ content dateStr header l,
      l ∈ getSectionLinesForDate content dateStr header →
      trimL l = l ∧ l ≠ [] ∧ startsWithL (str "==") l = false) ∧
    getCarryOverDoingItems
      (str "2025-12-19\n========================================\n[DOING]\n- Task A\nx Task B\nPlain task C\n\n[DONE]\nx Something else\n\n2025-12-20\n========================================\n[DOING]\n")
      (str "2025-12-20") = [str "- Task A", str "Plain task C"] := by
  refine ⟨?_, ?_, ?_, ?_, by decide⟩
  · intro content t prev h
    exact find?_sorted_max _ _ _ (extractDates_sorted content) h
  · intro content t h
    unfold getCarryOverDoingItems
    by_cases hg : (content = [] || t = []) = true
    · rw [if_pos hg]
    · rw [if_neg hg]
      dsimp only
      rw [h]
  · intro content t prev hc ht h
    unfold getCarryOverDoingItems
    rw [if_neg (by simp [hc, ht])]
    dsimp only
    rw [h]
  · intro content dateStr header l hmem
    unfold getSectionLinesForDate at hmem
    dsimp only at hmem
    cases hb : findDateBlock (splitNL content) dateStr with
    | none => rw [hb] at hmem; simp at hmem
    | some r =>
      obtain ⟨bs, be⟩ := r
      rw [hb] at hmem
      dsimp only at hmem
      cases hh : findIdxFrom (fun l => trimL l == header)
          (splitNL content) bs be with
      | none => rw [hh] at hmem; simp at hmem
      | some hi =>
        rw [hh] at hmem
        dsimp only at hmem
        rw [List.mem_filter] at hmem
        obtain ⟨hmap, hpred⟩ := hmem
        rw [List.mem_map] at hmap
        obtain ⟨raw, _, hraw⟩ := hmap
        simp only [Bool.and_eq_true, Bool.not_eq_true', beq_eq_false_iff_ne,
          ne_eq] at hpred
        refine ⟨?_, hpred.1, hpred.2⟩
        rw [← hraw, trimL_idem]

/-- **C6 amended witness**: the greatest-earlier-date property and the
filter equation instantiated on the example document. -/
theorem C6_witness :
    ((str "2025-12-19") ∈ extractDatesFromContent
        (str "2025-12-19\n[DOING]\n- a\n2025-12-18\n[DOING]\n- b") ∧
      lexLt (str "2025-12-19") (str "2025-12-20") = true ∧
      ∀ d ∈ extractDatesFromContent
          (str "2025-12-19\n[DOING]\n- a\n2025-12-18\n[DOING]\n- b"),
        lexLt d (str "2025-12-20") = true →
          lexLt d (str "2025-12-19") = true ∨ d = str "2025-12-19") ∧
    getCarryOverDoingItems
        (str "2025-12-19\n[DOING]\n- a\n2025-12-18\n[DOING]\n- b")
        (str "2025-12-20") =
      (getSectionLinesForDate
        (str "2025-12-19\n[DOING]\n- a\n2025-12-18\n[DOING]\n- b")
        (str "2025-12-19") (str "[DOING]")).filter (fun l => !xPrefixTest l) := by
  constructor
  · exact C6_amended_carry_over.1
      (str "2025-12-19\n[DOING]\n- a\n2025-12-18\n[DOING]\n- b")
      (str "2025-12-20") (str "2025-12-19") (by decide)
  · exact C6_amended_carry_over.2.2.1
      (str "2025-12-19\n[DOING]\n- a\n2025-12-18\n[DOING]\n- b")
      (str "2025-12-20") (str "2025-12-19") (by decide) (by decide)
      (by decide)

/-- **C7 amended**: when the requested date is absent, `updateSectionForDate`
prepends the block consisting of the date line, the 40-character separator,
the named section header followed by `newItems`, and then the fixed
`[DOING]`/`[DONE]`/`[NOTES]` skeleton with single blank-line separators,
followed by the existing content with its leading newlines stripped.  The
named section always comes first and the fixed skeleton always follows, so a
header is duplicated exactly when the named section is DOING, DONE or
NOTES. -/
theorem C7_amended_synthesized_block (content date sectionName : List Char)
    (newItems : List Line)
    (h : findIdxL (fun l => startsWithL date (trimL l)) (splitNL content) =
      none) :
    updateSectionForDate content date sectionName newItems =
      joinNL ([date, str "========================================",
        '[' :: sectionName ++ [']']] ++ newItems ++
        [[], str "[DOING]", [], str "[DONE]", [], str "[NOTES]", [], []]) ++
      content.dropWhile (fun c => c = '\n') := by
  unfold updateSectionForDate
  dsimp only
  rw [h]

/-- **C7 witness**: the skeleton equation instantiated on a concrete
document lacking the date. -/
theorem C7_witness :
    findIdxL (fun l => startsWithL (str "2025-01-01") (trimL l))
      (splitNL (str "notes\nmore")) = none ∧
    updateSectionForDate (str "notes\nmore") (str "2025-01-01")
        (str "EVENTS") [str "- e"] =
      str "2025-01-01\n========================================\n[EVENTS]\n- e\n\n[DOING]\n\n[DONE]\n\n[NOTES]\n\nnotes\nmore" := by
  refine ⟨by decide, ?_⟩
  rw [C7_amended_synthesized_block (str "notes\nmore") (str "2025-01-01")
    (str "EVENTS") [str "- e"] (by decide)]
  decide

/-- **C4 amended**: `addEventTaskToContent` searches every date block whose
header line starts with the given date and matches ANY line of those blocks
(not only top-level EVENTS lines) by exact raw, trimmed, or normalized
equality; on the first match it inserts `  - taskName` immediately below the
matched line and `- taskName` immediately after the containing block's
`[DOING]` header (creating a DOING section after the EVENTS section, or near
the top of the block, when DOING is missing).  The first conjunct places the
matched line inside an enumerated block; the second characterizes both
insertions; the third is the duplicated-date-header scenario, where the
event living in the second duplicate block is found and extended there. -/
theorem C4_amended_attach_matches_any_block_line :
    (∀ content dateStr raw ei be,
      searchBlocks (splitNL content) raw
        (findBlocksAux dateStr (splitNL content) 0 none) = some (ei, be) →
      ∃ s, (s, be) ∈ findBlocksAux dateStr (splitNL content) 0 none ∧
        s ≤ ei ∧ ei < be ∧ ei < (splitNL content).length ∧
        eventMatchPred raw ((splitNL content).getD ei []) = true) ∧
    (∀ content dateStr raw task ei be dI dE dhi, '\n' ∉ task →
      searchBlocks (splitNL content) raw
        (findBlocksAux dateStr (splitNL content) 0 none) = some (ei, be) →
      (findBlocksAux dateStr (splitNL content) 0 none).find?
        (fun b => b.1 ≤ ei && ei < b.2) = some (dI, dE) →
      findIdxFrom (fun l => trimL l == str "[DOING]")
        (insertAtL (splitNL content) (ei + 1) (str "  - " ++ task)) dI
        (be + 1) = some dhi →
      splitNL (addEventTaskToContent content dateStr raw task) =
        insertAtL (insertAtL (splitNL content) (ei + 1) (str "  - " ++ task))
          (dhi + 1) (str "- " ++ task)) ∧
    addEventTaskToContent
        (str "2025-12-16\n========================================\n[EVENTS]\n\n2025-12-16\n========================================\n[EVENTS]\n- 10:00 AM - Sync\n- 11:00 AM - Other\n")
        (str "2025-12-16") (str "- 10:00 AM - Sync") (str "prep") =
      str "2025-12-16\n========================================\n[EVENTS]\n\n2025-12-16\n========================================\n[EVENTS]\n- 10:00 AM - Sync\n  - prep\n- 11:00 AM - Other\n\n[DOING]\n- prep\n" := by
  refine ⟨?_, ?_, by decide⟩
  · intro content dateStr raw ei be h
    exact searchBlocks_some _ _ _ _ _ h
  · intro content dateStr raw task ei be dI dE dhi htask hsearch hfind hdoing
    unfold addEventTaskToContent
    dsimp only
    cases hb : findBlocksAux dateStr (splitNL content) 0 none with
    | nil => rw [hb] at hsearch; simp [searchBlocks] at hsearch
    | cons b bs =>
      rw [hb] at hsearch hfind
      simp only [hsearch, hfind, hdoing]
      have hN : NoNLs (insertAtL (insertAtL (splitNL content) (ei + 1)
          (str "  - " ++ task)) (dhi + 1) (str "- " ++ task)) := by
        apply NoNLs_insertManyAtL
        · intro l hl
          simp only [List.mem_singleton] at hl
          subst hl
          intro hmem
          rcases List.mem_append.mp hmem with hc | hc
          · simp [str] at hc
          · exact htask hc
        · apply NoNLs_insertManyAtL
          · intro l hl
            simp only [List.mem_singleton] at hl
            subst hl
            intro hmem
            rcases List.mem_append.mp hmem with hc | hc
            · simp [str] at hc
            · exact htask hc
          · exact NoNLs_splitNL content
      apply splitNL_joinNL_of_noNLs
      · intro hcon
        unfold insertAtL at hcon
        have hlen := congrArg List.length hcon
        rw [insertManyAtL_length, insertManyAtL_length] at hlen
        simp at hlen
      · exact hN

/-- **C4 witness**: the insertion characterization instantiated on the
DOING-line match of the counterexample document. -/
theorem C4_witness :
    splitNL (addEventTaskToContent (str "2025-01-01\n[DOING]\n- foo")
        (str "2025-01-01") (str "- foo") (str "t")) =
      insertAtL (insertAtL (splitNL (str "2025-01-01\n[DOING]\n- foo")) 3
        (str "  - " ++ str "t")) 2 (str "- " ++ str "t") := by
  exact C4_amended_attach_matches_any_block_line.2.1
    (str "2025-01-01\n[DOING]\n- foo") (str "2025-01-01") (str "- foo")
    (str "t") 2 3 0 3 1 (by decide) (by decide) (by decide) (by decide)

/-- **C2 witness**: concrete miss cases for each mutator, discharged through
the theorem. -/
theorem C2_witness :
    (findDateBlock (splitNL (str "2025-01-01\n[DOING]\n- a"))
        (str "2099-09-09") = none ∧
      moveDoingItemToDone (str "2025-01-01\n[DOING]\n- a")
        (str "2099-09-09") (str "- z") = str "2025-01-01\n[DOING]\n- a") ∧
    (findBlocksAux (str "2099-09-09")
        (splitNL (str "2025-01-01\n[DOING]\n- a")) 0 none = [] ∧
      addEventTaskToContent (str "2025-01-01\n[DOING]\n- a")
        (str "2099-09-09") (str "- z") (str "t") =
        str "2025-01-01\n[DOING]\n- a") ∧
    (findSectionWithinBlock (splitNL (str "2025-01-01\n[EVENTS]\n- e"))
        0 3 (str "[DOING]") = none ∧
      moveDoingItemToDone (str "2025-01-01\n[EVENTS]\n- e")
        (str "2025-01-01") (str "- z") = str "2025-01-01\n[EVENTS]\n- e") ∧
    (findIdxFrom (doingMatchPred (str "- zz"))
        (splitNL (str "2025-01-01\n[DOING]\n- a")) 2 3 = none ∧
      moveDoingItemToDone (str "2025-01-01\n[DOING]\n- a")
        (str "2025-01-01") (str "- zz") = str "2025-01-01\n[DOING]\n- a") ∧
    (findSectionWithinBlock (splitNL (str "2025-01-01\n[DOING]\n- a"))
        0 3 (str "[EVENTS]") = none ∧
      deleteEventSubtask (str "2025-01-01\n[DOING]\n- a")
        (str "2025-01-01") (str "  - z") = str "2025-01-01\n[DOING]\n- a") ∧
    (findIdxFrom (subtaskMatchPred (str "  - zz"))
        (splitNL (str "2025-01-01\n[EVENTS]\n- e")) 2 3 = none ∧
      deleteEventSubtask (str "2025-01-01\n[EVENTS]\n- e")
        (str "2025-01-01") (str "  - zz") = str "2025-01-01\n[EVENTS]\n- e") := by
  refine ⟨⟨by decide, ?_⟩, ⟨by decide, ?_⟩, ⟨by decide, ?_⟩, ⟨by decide, ?_⟩,
    ⟨by decide, ?_⟩, ⟨by decide, ?_⟩⟩
  · exact ((C2_mutators_unchanged_on_missing_target _ _ _ (str "t")).1
      (by decide)).1
  · exact (C2_mutators_unchanged_on_missing_target _ _ _ (str "t")).2.2.2.1
      (by decide)
  · exact (C2_mutators_unchanged_on_missing_target _ _ _ (str "t")).2.1
      0 3 (by decide) (by decide)
  · exact (C2_mutators_unchanged_on_missing_target _ _ _ (str "t")).2.2.1
      0 3 1 3 (by decide) (by decide) (by decide)
  · exact (C2_mutators_unchanged_on_missing_target _ _ _ (str "t")).2.2.2.2.2.1
      0 3 (by decide) (by decide)
  · exact (C2_mutators_unchanged_on_missing_target _ _ _
      (str "t")).2.2.2.2.2.2 0 3 1 3 (by decide) (by decide) (by decide)

end Journal
